import Mathlib

/-!
Verification of the terminal-transcript post-processor (`docs/terminal/fix.py`).

The script reads a recorded terminal session (one JSON event per line),
rewrites prompt markers, annotates `\r\n` escape sequences with an ANSI
reset, collapses consecutive `go: added github.com/...` package records
into one ellipsized summary record, and prints everything except the final
two lines.

Lines are modelled as lists of characters.  Python string operations are
modelled by executable Lean functions with the same semantics:
`str.replace` (nonempty pattern, leftmost non-overlapping), the `in`
substring test (`<:+:`), `str.split` on a nonempty separator, list slicing
(`take`/`drop` with truncating `Nat` subtraction, which matches Python's
clamping slices), and `json.loads`/`json.dumps` (a recursive-descent JSON
reader with Python's default `ensure_ascii` writer; numbers are kept as
their raw lexemes, a harmless simplification since the script never
inspects or reformats the non-payload elements).
-/

abbrev Line := List Char

def strOf (s : String) : Line := s.data

/-- Python `s.replace(pat, rep)` for a nonempty `pat`: replace all
leftmost non-overlapping occurrences.  Written with an explicit recursion
measure (an upper bound on the remaining length, always sufficient when
called through `replChars`) so the definition is structurally recursive
and computes inside the kernel. -/
def replCharsF (pat rep : List Char) : Nat → List Char → List Char
  | _, [] => []
  | 0, s => s
  | fuel + 1, c :: rest =>
    if pat ≠ [] ∧ pat.isPrefixOf (c :: rest) then
      rep ++ replCharsF pat rep fuel (List.drop (pat.length - 1) rest)
    else
      c :: replCharsF pat rep fuel rest

def replChars (pat rep : List Char) (s : List Char) : List Char :=
  replCharsF pat rep s.length s

/-- Python `s.split(sep)` for a nonempty separator, with the same
explicit recursion measure. -/
def splitSepF (sep : List Char) : Nat → List Char → List (List Char)
  | _, [] => [[]]
  | 0, s => [ s ]
  | fuel + 1, c :: rest =>
    if sep ≠ [] ∧ sep.isPrefixOf (c :: rest) then
      [] :: splitSepF sep fuel (List.drop (sep.length - 1) rest)
    else
      match splitSepF sep fuel rest with
      | [] => [[ c ]]
      | g :: gs => (c :: g) :: gs

def splitSep (sep : List Char) (s : List Char) : List (List Char) :=
  splitSepF sep s.length s

/- The literal pieces of text the script matches on or inserts.
They live in the JSON-escaped representation of each line, so `\r\n`
is the four characters backslash-r-backslash-n, etc. -/

def dollarSp : Line := [ '$', ' ' ]
def promptMark : Line := [ '$', ' ', '"', ']' ]
def rnJson : Line := [ '"', '\\', 'r', '\\', 'n', '"', ']' ]
def hashQ : Line := [ '"', '#', '"' ]
def dimRep : Line := [ '\\', 'u', '0', '0', '1', 'b', '[', '3', '9', ';', '2', 'm' ]
def rnEsc : Line := [ '\\', 'r', '\\', 'n' ]
def esc0mEsc : Line := [ '\\', 'u', '0', '0', '1', 'b', '[', '0', 'm' ]
def resetRep : Line := rnEsc ++ esc0mEsc
def blueRep : Line :=
  [ '\\', 'u', '0', '0', '1', 'b', '[', '3', '4', 'm', '$',
    '\\', 'u', '0', '0', '1', 'b', '[', '0', 'm', ' ' ]
def marker : Line :=
  [ 'g', 'o', ':', ' ', 'a', 'd', 'd', 'e', 'd', ' ',
    'g', 'i', 't', 'h', 'u', 'b', '.', 'c', 'o', 'm', '/' ]
def crlfR : Line := [ '\r', '\n' ]
def esc0mR : Line := [ '\x1b', '[', '0', 'm' ]
def dotsE : Line := strOf "..."

/-- The body of the first loop's conditional rewrite: given the current
line (already known to contain `$ "]`) and the next line, apply the two
independent successor-dependent replacements in source order. -/
def promptFix (cur nxt : Line) : Line :=
  let c1 := if rnJson <:+: nxt then replChars dollarSp [] cur else cur
  if hashQ <:+: nxt then replChars dollarSp dimRep c1 else c1

/-- One iteration of the first loop on line `i`: the conditional prompt
rewrite (only when a successor line exists), then the unconditional
`\r\n → \r\n\u001b[0m` annotation. -/
def fix1 (cur : Line) (next? : Option Line) : Line :=
  let c :=
    if promptMark <:+: cur then
      match next? with
      | some nxt => promptFix cur nxt
      | none => cur
    else cur
  replChars rnEsc resetRep c

/-- The first loop of the script (steps 1 and 2 fused).  At iteration `i`
the successor `lines[i+1]` has not yet been rewritten, so each line is
checked against its original successor. -/
def pass12 : List Line → List Line
  | [] => []
  | c :: rest => fix1 c rest.head? :: pass12 rest

/-- The second loop: blanket recoloring of every remaining `$ `. -/
def pass3 (ls : List Line) : List Line := ls.map (replChars dollarSp blueRep)

/-- The whole prompt-recoloring/annotation stage (spec section 4.1). -/
def recolor (ls : List Line) : List Line := pass3 (pass12 ls)

/-! ### JSON model

A JSON value as `json.loads` produces it for this script's inputs.
Numbers are kept as raw lexemes: the script never inspects element 0/1 of
a record, it only re-serializes them, so keeping the source text is the
faithful choice for round-tripping.  (`json.dumps` may reformat floats,
e.g. `1.50` to `1.5`; that reformatting is outside what any claim
exercises.) -/

inductive JVal where
  | str (s : List Char)
  | num (raw : List Char)
  | bool (b : Bool)
  | null
  | arr (es : List JVal)
  | obj (fs : List (List Char × JVal))

def isWsChar (c : Char) : Bool := c = ' ' || c = '\t' || c = '\n' || c = '\r'

def skipWs : List Char → List Char
  | [] => []
  | c :: r => if isWsChar c then skipWs r else c :: r

def hexVal (c : Char) : Option Nat :=
  if '0' ≤ c ∧ c ≤ '9' then some (c.toNat - '0'.toNat)
  else if 'a' ≤ c ∧ c ≤ 'f' then some (c.toNat - 'a'.toNat + 10)
  else if 'A' ≤ c ∧ c ≤ 'F' then some (c.toNat - 'A'.toNat + 10)
  else none

def escMap (e : Char) : Option Char :=
  if e = '"' then some '"'
  else if e = '\\' then some '\\'
  else if e = '/' then some '/'
  else if e = 'b' then some (Char.ofNat 8)
  else if e = 'f' then some (Char.ofNat 12)
  else if e = 'n' then some '\n'
  else if e = 'r' then some '\r'
  else if e = 't' then some '\t'
  else none

/-- JSON string body reader (after the opening quote): plain characters,
backslash escapes, `\uXXXX` with surrogate-pair combination, and the
strict-mode rejection of raw control characters.  Written with an
explicit recursion measure like `replCharsF`. -/
def pStrF : Nat → List Char → Option (List Char × List Char)
  | _, [] => none
  | 0, _ => none
  | fuel + 1, s =>
    match s with
    | [] => none
    | '"' :: r => some ([], r)
    | '\\' :: 'u' :: a :: b :: c :: d :: r =>
      match hexVal a, hexVal b, hexVal c, hexVal d with
      | some x, some y, some z, some w =>
        let n := ((x * 16 + y) * 16 + z) * 16 + w
        if 0xD800 ≤ n ∧ n < 0xDC00 then
          match r with
          | '\\' :: 'u' :: a2 :: b2 :: c2 :: d2 :: r2 =>
            match hexVal a2, hexVal b2, hexVal c2, hexVal d2 with
            | some x2, some y2, some z2, some w2 =>
              let m := ((x2 * 16 + y2) * 16 + z2) * 16 + w2
              if 0xDC00 ≤ m ∧ m < 0xE000 then
                (pStrF fuel r2).map (fun p =>
                  (Char.ofNat (0x10000 + (n - 0xD800) * 0x400 + (m - 0xDC00)) :: p.1, p.2))
              else
                (pStrF fuel r).map (fun p => (Char.ofNat n :: p.1, p.2))
            | _, _, _, _ => (pStrF fuel r).map (fun p => (Char.ofNat n :: p.1, p.2))
          | _ => (pStrF fuel r).map (fun p => (Char.ofNat n :: p.1, p.2))
        else
          (pStrF fuel r).map (fun p => (Char.ofNat n :: p.1, p.2))
      | _, _, _, _ => none
    | '\\' :: e :: r =>
      match escMap e with
      | some ch => (pStrF fuel r).map (fun p => (ch :: p.1, p.2))
      | none => none
    | c :: r => if c.toNat < 0x20 then none else (pStrF fuel r).map (fun p => (c :: p.1, p.2))

def pStr (s : List Char) : Option (List Char × List Char) := pStrF s.length s

def digitSpan : List Char → (List Char × List Char)
  | [] => ([], [])
  | c :: r => if c.isDigit then ((c :: (digitSpan r).1), (digitSpan r).2) else ([], c :: r)

/-- `(0|[1-9][0-9]*)` -/
def pIntCore : List Char → Option (List Char × List Char)
  | [] => none
  | '0' :: r => some ([ '0' ], r)
  | c :: r => if c.isDigit then some (c :: (digitSpan r).1, (digitSpan r).2) else none

/-- `-?(0|[1-9][0-9]*)` -/
def pIntLex : List Char → Option (List Char × List Char)
  | '-' :: r => (pIntCore r).map (fun p => ('-' :: p.1, p.2))
  | s => pIntCore s

/-- `(\.[0-9]+)?` -/
def pFrac : List Char → (List Char × List Char)
  | '.' :: c :: r =>
    if c.isDigit then ('.' :: c :: (digitSpan r).1, (digitSpan r).2) else ([], '.' :: c :: r)
  | s => ([], s)

/-- `([eE][-+]?[0-9]+)?` -/
def pExp : List Char → (List Char × List Char)
  | [] => ([], [])
  | e :: r =>
    if e = 'e' ∨ e = 'E' then
      match r with
      | [] => ([], e :: r)
      | s :: r2 =>
        if s = '+' ∨ s = '-' then
          match r2 with
          | [] => ([], e :: r)
          | c :: r3 =>
            if c.isDigit then (e :: s :: c :: (digitSpan r3).1, (digitSpan r3).2)
            else ([], e :: r)
        else if s.isDigit then (e :: s :: (digitSpan r2).1, (digitSpan r2).2)
        else ([], e :: r)
    else ([], e :: r)

/-- A JSON number lexeme, as Python's `json` scanner matches it. -/
def pNum (s : List Char) : Option (List Char × List Char) :=
  match pIntLex s with
  | none => none
  | some (i, r1) =>
    let f := pFrac r1
    let e := pExp f.2
    some (i ++ f.1 ++ e.1, e.2)

def stripLit (lit : List Char) (s : List Char) : Option (List Char) :=
  if lit.isPrefixOf s then some (List.drop lit.length s) else none

mutual

/-- Fueled recursive-descent JSON value reader.  With fuel at least
`2 * length + 4` the fuel can only run out on inputs that are invalid
anyway (unclosed brackets). -/
def pVal : Nat → List Char → Option (JVal × List Char)
  | 0, _ => none
  | fuel + 1, s =>
    match skipWs s with
    | [] => none
    | c :: r =>
      if c = '"' then (pStr r).map (fun p => (.str p.1, p.2))
      else if c = '[' then pArrTop fuel r
      else if c = Char.ofNat 123 then pObjTop fuel r
      else
        match stripLit (strOf "true") (c :: r) with
        | some r2 => some (.bool true, r2)
        | none =>
        match stripLit (strOf "false") (c :: r) with
        | some r2 => some (.bool false, r2)
        | none =>
        match stripLit (strOf "null") (c :: r) with
        | some r2 => some (.null, r2)
        | none =>
        match stripLit (strOf "NaN") (c :: r) with
        | some r2 => some (.num (strOf "NaN"), r2)
        | none =>
        match stripLit (strOf "Infinity") (c :: r) with
        | some r2 => some (.num (strOf "Infinity"), r2)
        | none =>
        match stripLit (strOf "-Infinity") (c :: r) with
        | some r2 => some (.num (strOf "-Infinity"), r2)
        | none => (pNum (c :: r)).map (fun p => (.num p.1, p.2))

def pArrTop : Nat → List Char → Option (JVal × List Char)
  | 0, _ => none
  | fuel + 1, s =>
    match skipWs s with
    | ']' :: r => some (.arr [], r)
    | s2 => pArrItems fuel s2 []

def pArrItems : Nat → List Char → List JVal → Option (JVal × List Char)
  | 0, _, _ => none
  | fuel + 1, s, acc =>
    match pVal fuel s with
    | none => none
    | some (v, r) =>
      match skipWs r with
      | ',' :: r2 => pArrItems fuel r2 (acc ++ [v])
      | ']' :: r2 => some (.arr (acc ++ [v]), r2)
      | _ => none

def pObjTop : Nat → List Char → Option (JVal × List Char)
  | 0, _ => none
  | fuel + 1, s =>
    match skipWs s with
    | '\x7d' :: r => some (.obj [], r)
    | s2 => pObjItems fuel s2 []

def pObjItems : Nat → List Char → List (List Char × JVal) → Option (JVal × List Char)
  | 0, _, _ => none
  | fuel + 1, s, acc =>
    match skipWs s with
    | '"' :: r =>
      match pStr r with
      | none => none
      | some (k, r2) =>
        match skipWs r2 with
        | ':' :: r3 =>
          match pVal fuel r3 with
          | none => none
          | some (v, r4) =>
            match skipWs r4 with
            | ',' :: r5 => pObjItems fuel r5 (acc ++ [(k, v)])
            | '\x7d' :: r5 => some (.obj (acc ++ [(k, v)]), r5)
            | _ => none
        | _ => none
    | _ => none

end

/-- `json.loads`: parse one value, allow trailing whitespace, reject
anything else left over. -/
def jloads (s : List Char) : Option JVal :=
  match pVal (2 * s.length + 4) s with
  | some (v, r) => if skipWs r = [] then some v else none
  | none => none

def toHexDigit (n : Nat) : Char :=
  if n < 10 then Char.ofNat ('0'.toNat + n) else Char.ofNat ('a'.toNat + n - 10)

def uEsc (n : Nat) : List Char :=
  [ '\\', 'u', toHexDigit (n / 4096 % 16), toHexDigit (n / 256 % 16),
    toHexDigit (n / 16 % 16), toHexDigit (n % 16) ]

/-- How `json.dumps` (default `ensure_ascii=True`) writes one character
of a string. -/
def escChar (c : Char) : List Char :=
  if c = '"' then [ '\\', '"' ]
  else if c = '\\' then [ '\\', '\\' ]
  else if c = '\n' then [ '\\', 'n' ]
  else if c = '\r' then [ '\\', 'r' ]
  else if c = '\t' then [ '\\', 't' ]
  else if c.toNat = 8 then [ '\\', 'b' ]
  else if c.toNat = 12 then [ '\\', 'f' ]
  else if 0x20 ≤ c.toNat ∧ c.toNat ≤ 0x7e then [ c ]
  else if c.toNat < 0x10000 then uEsc c.toNat
  else uEsc (0xD800 + (c.toNat - 0x10000) / 0x400) ++ uEsc (0xDC00 + (c.toNat - 0x10000) % 0x400)

def jescape (s : List Char) : List Char := (s.map escChar).flatten

mutual

/-- `json.dumps` with its default separators `", "` and `": "`. -/
def jdumps : JVal → List Char
  | .str s => '"' :: (jescape s ++ [ '"' ])
  | .num raw => raw
  | .bool true => strOf "true"
  | .bool false => strOf "false"
  | .null => strOf "null"
  | .arr es => '[' :: (jdumpsArr es ++ [ ']' ])
  | .obj fs => Char.ofNat 123 :: (jdumpsObj fs ++ [ Char.ofNat 125 ])

def jdumpsArr : List JVal → List Char
  | [] => []
  | [v] => jdumps v
  | v :: v2 :: rest => jdumps v ++ ',' :: ' ' :: jdumpsArr (v2 :: rest)

def jdumpsObj : List (List Char × JVal) → List Char
  | [] => []
  | [(k, v)] => '"' :: (jescape k ++ '"' :: ':' :: ' ' :: jdumps v)
  | (k, v) :: f2 :: rest =>
    '"' :: (jescape k ++ '"' :: ':' :: ' ' :: jdumps v) ++ ',' :: ' ' :: jdumpsObj (f2 :: rest)

end

/-! ### The package-list collapser and the emitter -/

/-- The dynamic errors the script can die with: a JSON decode error, an
out-of-range index (`data[2]` on a short array, or `package_del[0]` on an
empty list), an unsubscriptable value, or a value with no `.split`
(Python `TypeError`/`AttributeError`). -/
inductive PyErr where
  | jsonErr
  | indexErr
  | typeErr
  | attrErr
deriving DecidableEq

/-- Python `data[2]`: in-range indexing of a list or string; anything
else is not subscriptable by an integer (objects aside, which `jloads`
never returns here with an int key anyway, the error kind is the only
thing the script can observe — it dies either way). -/
def getItem2 : JVal → Except PyErr JVal
  | .arr es =>
    match es[2]? with
    | some v => .ok v
    | none => .error .indexErr
  | .str s =>
    match s[2]? with
    | some c => .ok (.str [ c ])
    | none => .error .indexErr
  | _ => .error .typeErr

/-- One package-addition line's contribution to the scan:
`json.loads(line)` then `data[2].split("\r\n")` (dying if `data[2]` has
no `.split`, i.e. is not a string), returning the split entries together
with the decoded record. -/
def lineEntries (l : Line) : Except PyErr (List (List Char) × JVal) :=
  match jloads l with
  | none => .error .jsonErr
  | some data =>
    match getItem2 data with
    | .error e => .error e
    | .ok (.str p) => .ok (splitSep crlfR p, data)
    | .ok _ => .error .attrErr

/-- The scan state of the collapser loop: `packages`, `package_row`,
`package_del`. -/
structure ScanSt where
  packages : List (List Char)
  row? : Option JVal
  dels : List Nat

def initSt : ScanSt := ⟨[], none, []⟩

/-- The collapser's scan loop, starting at line index `k`. -/
def scanFrom (k : Nat) : List Line → ScanSt → Except PyErr ScanSt
  | [], st => .ok st
  | l :: rest, st =>
    if marker <:+: l then
      match lineEntries l with
      | .error e => .error e
      | .ok (es, data) =>
        scanFrom (k + 1) rest
          { packages := st.packages ++ es
            row? := some (st.row?.getD data)
            dels := st.dels ++ [ k ] }
    else scanFrom (k + 1) rest st

/-- `packages[:3] + ["..."] + packages[-3:]` — the unconditional
head+ellipsis+tail truncation. -/
def ellipsize (ps : List (List Char)) : List (List Char) :=
  ps.take 3 ++ [ dotsE ] ++ ps.drop (ps.length - 3)

/-- Python truthiness of a decoded JSON value (`if package_row:`).  For
numbers, the model treats any lexeme containing a nonzero digit as
truthy; the scan only ever stores arrays or strings of length at least 3
here, so the number case is unreachable in the script. -/
def jTruthy : JVal → Bool
  | .str s => !s.isEmpty
  | .arr es => !es.isEmpty
  | .obj fs => !fs.isEmpty
  | .bool b => b
  | .null => false
  | .num raw => raw.any (fun c => c.isDigit && c != '0')

/-- Python `package_row[2] = x`: in-place item assignment, a `TypeError`
on anything but a list. -/
def setItem2 (v : JVal) (x : JVal) : Except PyErr JVal :=
  match v with
  | .arr es => if 2 < es.length then .ok (.arr (es.set 2 x)) else .error .indexErr
  | _ => .error .typeErr

/-- The merge into the first match (`if package_row: ...` in the source):
ellipsize the accumulated entries, store them at index 2 of the first
match's record, re-encode it and overwrite line `package_del[0]`. -/
def mergeStep (ls : List Line) (st : ScanSt) : Except PyErr (List Line) :=
  match st.row? with
  | some row =>
    if jTruthy row then
      match setItem2 row (.str (List.intercalate crlfR (ellipsize st.packages))) with
      | .error e => .error e
      | .ok row2 =>
        match st.dels.head? with
        | some i0 => .ok (ls.set i0 (jdumps row2 ++ [ '\n' ]))
        | none => .error .indexErr
    else .ok ls
  | none => .ok ls

/-- The whole collapser: the scan, the merge, then the reversed deletion
loop (which in the source runs unconditionally but is a no-op when there
was no match). -/
def collapse (ls : List Line) : Except PyErr (List Line) :=
  match scanFrom 0 ls initSt with
  | .error e => .error e
  | .ok st =>
    match mergeStep ls st with
    | .error e => .error e
    | .ok ls2 => .ok ((st.dels.drop 1).reverse.foldl (fun acc j => acc.eraseIdx j) ls2)

/-- The emitter: `print("".join(lines[:-2]))`.  Python's clamping slice
is `take (length - 2)` with truncating subtraction; `print` appends a
newline. -/
def emitTrim (ls : List Line) : List Char := (ls.take (ls.length - 2)).flatten ++ [ '\n' ]

/-- The whole program on an in-memory recording. -/
def fixRun (ls : List Line) : Except PyErr (List Char) :=
  match collapse (recolor ls) with
  | .error e => .error e
  | .ok out => .ok (emitTrim out)

/-! ### Claim-side definitions

These mirror the spec's wording (not the code) and are related to the
model by the theorems below. -/

/-- Spec 4.1 step 1, first rule: if the successor contains `"\r\n"]`,
remove `$ ` from the current line. -/
def rmStep (cur nxt : Line) : Line :=
  if rnJson <:+: nxt then replChars dollarSp [] cur else cur

/-- Spec 4.1 step 1, second rule: if the successor contains `"#"`,
replace `$ ` with the dim escape (operating on the first rule's
result). -/
def dimStep (cur nxt : Line) : Line :=
  if hashQ <:+: nxt then replChars dollarSp dimRep cur else cur

/-- Indices (from a starting offset) of the lines containing the
package-addition marker. -/
def matchIdxsFrom (k : Nat) : List Line → List Nat
  | [] => []
  | l :: rest =>
    if marker <:+: l then k :: matchIdxsFrom (k + 1) rest else matchIdxsFrom (k + 1) rest

def matchIdxs (ls : List Line) : List Nat := matchIdxsFrom 0 ls

/-- Keep the elements whose (offset) position is not listed. -/
def keepNotIn (js : List Nat) : Nat → List Line → List Line
  | _, [] => []
  | k, x :: xs =>
    if k ∈ js then keepNotIn js (k + 1) xs else x :: keepNotIn js (k + 1) xs

/-- The split entry lists contributed by one package-addition line, as
the spec describes them: decode, take element 2, split on CR-LF. -/
def entriesOfLine (l : Line) : Except PyErr (List (List Char)) :=
  (lineEntries l).map (fun p => p.1)

/-- The merged summary line as the spec describes it: the first match's
decoded record with the ellipsized, re-joined payload stored at index 2,
re-encoded and given a trailing newline. -/
def mergedOf (ls : List Line) : Except PyErr Line :=
  match scanFrom 0 ls initSt with
  | .error e => .error e
  | .ok st =>
    match st.row? with
    | none => .error .indexErr
    | some row =>
      match setItem2 row (.str (List.intercalate crlfR (ellipsize st.packages))) with
      | .error e => .error e
      | .ok row2 => .ok (jdumps row2 ++ [ '\n' ])

/-- Number of occurrence positions of `p` in `s`. -/
def occCount (p s : List Char) : Nat :=
  (List.range s.length).countP (fun k => p.isPrefixOf (s.drop k))

/-- The payload-level annotation: a real ESC[0m inserted after every
CR-LF (what the raw-text rewrite of `\r\n` amounts to inside the decoded
payload). -/
def annP (p : List Char) : List Char := replChars crlfR (crlfR ++ esc0mR) p

/-- A canonical-form recording line `[t, ev, p]` as `json.dumps` writes
it (the asciinema shape: a number, an event-type string, a payload
string). -/
def recLine (t ev p : List Char) : Line :=
  '[' :: (t ++ ',' :: ' ' :: (jdumps (.str ev) ++ ',' :: ' ' :: (jdumps (.str p) ++ [ ']', '\n' ])))

/-- Plain printable ASCII with no quote, backslash or dollar: the
character class for which `escChar` is the identity and which keeps a
line out of the prompt passes. -/
def plainCh (c : Char) : Bool :=
  0x20 ≤ c.toNat && c.toNat ≤ 0x7e && c != '"' && c != '\\' && c != '$'

/-- Payload characters for the C10 round-trip: plain, or a real CR/LF. -/
def payloadCh (c : Char) : Bool := plainCh c || c = '\r' || c = '\n'

/-- The characters an annotated payload can hold: payload characters
plus the real ESC introduced by the reset insertion. -/
def annCh (c : Char) : Bool := payloadCh c || c = '\x1b'

/-! ### Generic list lemmas -/

theorem isPrefixOf_iff_pfx : ∀ {l₁ l₂ : List Char}, l₁.isPrefixOf l₂ = true ↔ l₁ <+: l₂
  | [], l₂ => by simp [List.isPrefixOf]
  | a :: t, [] => by simp [List.isPrefixOf]
  | a :: t, b :: u => by
    simp [List.isPrefixOf, List.cons_prefix_cons, @isPrefixOf_iff_pfx t u]

theorem pfx_append_left {q a b : List Char} (h : q.length ≤ a.length) :
    q <+: a ++ b ↔ q <+: a := by
  rw [List.prefix_iff_eq_take, List.prefix_iff_eq_take, List.take_append_of_le_length h]

theorem pfx_of_long {q a b : List Char} (h : q <+: a ++ b) (hl : a.length ≤ q.length) :
    a <+: q := by
  rcases h with ⟨t, ht⟩
  have h1 : q.take a.length = a := by
    have h2 := congrArg (List.take a.length) ht
    rw [List.take_append_of_le_length hl, List.take_left] at h2
    exact h2
  have h3 := List.take_append_drop a.length q
  rw [h1] at h3
  exact ⟨q.drop a.length, h3⟩

theorem ifx_cons_cases {p : List Char} {c : Char} {t : List Char} (h : p <:+: c :: t) :
    p <+: c :: t ∨ p <:+: t := by
  rcases h with ⟨s, u, hsu⟩
  cases s with
  | nil => left; exact ⟨u, by simpa using hsu⟩
  | cons x s' =>
    right
    simp only [List.cons_append] at hsu
    injection hsu with h1 h2
    exact ⟨s', u, h2⟩

theorem ifx_of_pfx {p t : List Char} (h : p <+: t) : p <:+: t := h.isInfix

theorem ifx_cons_of_ifx {p t : List Char} (c : Char) (h : p <:+: t) : p <:+: c :: t := by
  rcases h with ⟨s, u, hsu⟩
  exact ⟨c :: s, u, by simp [hsu]⟩

theorem ifx_append_cases {p a b : List Char} (h : p <:+: a ++ b) :
    (∃ k, k < a.length ∧ p <+: a.drop k ++ b) ∨ p <:+: b := by
  induction a with
  | nil => right; simpa using h
  | cons c a' ih =>
    rcases ifx_cons_cases (by simpa using h) with hp | hi
    · left; exact ⟨0, by simp, by simpa using hp⟩
    · rcases ih hi with ⟨k, hk, hkp⟩ | hb
      · left
        refine ⟨k + 1, by simpa using Nat.succ_lt_succ hk, ?_⟩
        simpa using hkp
      · right; exact hb

theorem ifx_of_drop {p t : List Char} {n : Nat} (h : p <:+: t.drop n) : p <:+: t := by
  rcases h with ⟨s, u, hsu⟩
  have h3 : t.take n ++ (s ++ p ++ u) = t := by rw [hsu, List.take_append_drop]
  exact ⟨t.take n ++ s, u, by simpa [List.append_assoc] using h3⟩

/-! ### Rewriting lemmas for `replChars` and `splitSep` -/

theorem replCharsF_fuel (pat rep : List Char) : ∀ (f g : Nat) (s : List Char),
    s.length ≤ f → s.length ≤ g → replCharsF pat rep f s = replCharsF pat rep g s := by
  intro f
  induction f with
  | zero =>
    intro g s hf _
    have hs : s = [] := List.length_eq_zero.mp (Nat.le_zero.mp hf)
    subst hs
    cases g <;> rfl
  | succ f ih =>
    intro g s hf hg
    cases s with
    | nil => cases g <;> rfl
    | cons c rest =>
      cases g with
      | zero => simp at hg
      | succ g =>
        rw [replCharsF, replCharsF]
        split
        · have h1 : (List.drop (pat.length - 1) rest).length ≤ f := by
            simp only [List.length_drop]
            simp only [List.length_cons] at hf
            omega
          have h2 : (List.drop (pat.length - 1) rest).length ≤ g := by
            simp only [List.length_drop]
            simp only [List.length_cons] at hg
            omega
          rw [ih g (List.drop (pat.length - 1) rest) h1 h2]
        · have h1 : rest.length ≤ f := by
            simp only [List.length_cons] at hf
            omega
          have h2 : rest.length ≤ g := by
            simp only [List.length_cons] at hg
            omega
          rw [ih g rest h1 h2]

theorem replChars_nil (pat rep : List Char) : replChars pat rep [] = [] := rfl

theorem replChars_cons_match {pat rep : List Char} {c : Char} {rest : List Char}
    (hne : pat ≠ []) (h : pat <+: c :: rest) :
    replChars pat rep (c :: rest) = rep ++ replChars pat rep ((c :: rest).drop pat.length) := by
  have hb : pat.isPrefixOf (c :: rest) = true := isPrefixOf_iff_pfx.mpr h
  have hd : (c :: rest).drop pat.length = rest.drop (pat.length - 1) := by
    cases hp : pat with
    | nil => exact absurd hp hne
    | cons a q => simp [hp]
  rw [replChars, replChars, hd]
  show replCharsF pat rep (rest.length + 1) (c :: rest) = _
  rw [replCharsF, if_pos ⟨hne, hb⟩]
  congr 1
  refine replCharsF_fuel pat rep rest.length (rest.drop (pat.length - 1)).length _ ?_ (Nat.le_refl _)
  simp only [List.length_drop]
  omega

theorem replChars_cons_skip {pat rep : List Char} {c : Char} {rest : List Char}
    (h : ¬ pat <+: c :: rest) :
    replChars pat rep (c :: rest) = c :: replChars pat rep rest := by
  rw [replChars, replChars]
  show replCharsF pat rep (rest.length + 1) (c :: rest) = _
  rw [replCharsF, if_neg]
  rintro ⟨hne, hb⟩
  exact h (isPrefixOf_iff_pfx.mp hb)

theorem splitSepF_fuel (sep : List Char) : ∀ (f g : Nat) (s : List Char),
    s.length ≤ f → s.length ≤ g → splitSepF sep f s = splitSepF sep g s := by
  intro f
  induction f with
  | zero =>
    intro g s hf _
    have hs : s = [] := List.length_eq_zero.mp (Nat.le_zero.mp hf)
    subst hs
    cases g <;> rfl
  | succ f ih =>
    intro g s hf hg
    cases s with
    | nil => cases g <;> rfl
    | cons c rest =>
      cases g with
      | zero => simp at hg
      | succ g =>
        rw [splitSepF, splitSepF]
        split
        · have h1 : (List.drop (sep.length - 1) rest).length ≤ f := by
            simp only [List.length_drop]
            simp only [List.length_cons] at hf
            omega
          have h2 : (List.drop (sep.length - 1) rest).length ≤ g := by
            simp only [List.length_drop]
            simp only [List.length_cons] at hg
            omega
          rw [ih g (List.drop (sep.length - 1) rest) h1 h2]
        · have h1 : rest.length ≤ f := by
            simp only [List.length_cons] at hf
            omega
          have h2 : rest.length ≤ g := by
            simp only [List.length_cons] at hg
            omega
          rw [ih g rest h1 h2]

theorem splitSep_nil (sep : List Char) : splitSep sep [] = [[]] := rfl

theorem splitSep_cons_match {sep : List Char} {c : Char} {rest : List Char}
    (hne : sep ≠ []) (h : sep <+: c :: rest) :
    splitSep sep (c :: rest) = [] :: splitSep sep ((c :: rest).drop sep.length) := by
  have hb : sep.isPrefixOf (c :: rest) = true := isPrefixOf_iff_pfx.mpr h
  have hd : (c :: rest).drop sep.length = rest.drop (sep.length - 1) := by
    cases hp : sep with
    | nil => exact absurd hp hne
    | cons a q => simp [hp]
  rw [splitSep, splitSep, hd]
  show splitSepF sep (rest.length + 1) (c :: rest) = _
  rw [splitSepF, if_pos ⟨hne, hb⟩]
  congr 1
  refine splitSepF_fuel sep rest.length (rest.drop (sep.length - 1)).length _ ?_ (Nat.le_refl _)
  simp only [List.length_drop]
  omega

theorem splitSep_cons_skip {sep : List Char} {c : Char} {rest : List Char}
    (h : ¬ sep <+: c :: rest) :
    splitSep sep (c :: rest) =
      match splitSep sep rest with
      | [] => [[ c ]]
      | g :: gs => (c :: g) :: gs := by
  rw [splitSep, splitSep]
  show splitSepF sep (rest.length + 1) (c :: rest) = _
  rw [splitSepF, if_neg]
  rintro ⟨hne, hb⟩
  exact h (isPrefixOf_iff_pfx.mp hb)

theorem splitSepF_ne_nil (sep : List Char) : ∀ (f : Nat) (s : List Char), splitSepF sep f s ≠ []
  | f, [] => by cases f <;> simp [splitSepF]
  | 0, c :: rest => by simp [splitSepF]
  | f + 1, c :: rest => by
    rw [splitSepF]
    split
    · simp
    · split <;> simp

theorem splitSep_ne_nil (sep : List Char) (s : List Char) : splitSep sep s ≠ [] :=
  splitSepF_ne_nil sep s.length s

theorem replChars_pat_nil (rep : List Char) (s : List Char) : replChars [] rep s = s := by
  rw [replChars]
  suffices h : ∀ (f : Nat) (t : List Char), t.length ≤ f → replCharsF [] rep f t = t from
    h s.length s (Nat.le_refl _)
  intro f
  induction f with
  | zero =>
    intro t hf
    have ht : t = [] := List.length_eq_zero.mp (Nat.le_zero.mp hf)
    subst ht
    rfl
  | succ f ih =>
    intro t hf
    cases t with
    | nil => rfl
    | cons c rest =>
      rw [replCharsF, if_neg (by simp)]
      simp only [List.length_cons] at hf
      rw [ih rest (by omega)]

theorem replChars_of_not_ifx {pat rep : List Char} : ∀ {s : List Char},
    ¬ pat <:+: s → replChars pat rep s = s
  | [], _ => replChars_nil pat rep
  | c :: rest, h => by
    have h1 : ¬ pat <+: c :: rest := fun hp => h (ifx_of_pfx hp)
    rw [replChars_cons_skip h1, replChars_of_not_ifx (fun hi => h (ifx_cons_of_ifx c hi))]

/-- If the replacement `rep` is at least as long as a pattern `p`, contains
no occurrence of `p`, no proper suffix of `rep` is a prefix of `p` and no
proper tail of `p` is a prefix of `rep`, then replacing `pat` by `rep`
cannot create an occurrence of `p` that was not already present, and
cannot newly make a proper tail of `p` a prefix of the text. -/
theorem replChars_no_create {p pat rep : List Char}
    (hplen : 0 < p.length)
    (hlen : p.length ≤ rep.length)
    (h2 : ∀ k, k < rep.length → ¬ p <+: rep.drop k)
    (h3 : ∀ k, k < rep.length → 0 < k → ¬ rep.drop k <+: p)
    (h4 : ∀ j, j < p.length → 0 < j → ¬ p.drop j <+: rep) :
    ∀ (s : List Char), ¬ p <:+: s →
      (¬ p <:+: replChars pat rep s) ∧
      (∀ j, 0 < j → j < p.length → p.drop j <+: replChars pat rep s → p.drop j <+: s)
  | [], hs => by
    rw [replChars_nil]
    exact ⟨hs, fun j _ _ hp => hp⟩
  | c :: rest, hs => by
    rcases Nat.eq_zero_or_pos pat.length with hpe | hpp
    · rw [List.length_eq_zero] at hpe
      subst hpe
      rw [replChars_pat_nil]
      exact ⟨hs, fun j _ _ hp => hp⟩
    have hpatne : pat ≠ [] := by
      intro h; subst h; simp at hpp
    by_cases hm : pat <+: c :: rest
    · -- match: output is rep ++ (recursive output on the dropped text)
      rw [replChars_cons_match hpatne hm]
      have hdlt : ((c :: rest).drop pat.length).length < (c :: rest).length := by
        simp only [List.length_drop, List.length_cons]
        omega
      have hs' : ¬ p <:+: (c :: rest).drop pat.length := fun hi => hs (ifx_of_drop hi)
      have IH := @replChars_no_create p pat rep hplen hlen h2 h3 h4 ((c :: rest).drop pat.length) hs'
      constructor
      · intro hp
        rcases ifx_append_cases hp with ⟨k, hk, hkp⟩ | hb
        · by_cases hl2 : p.length ≤ (rep.drop k).length
          · exact h2 k hk ((pfx_append_left hl2).mp hkp)
          · have hfrag : rep.drop k <+: p := pfx_of_long hkp (Nat.le_of_lt (Nat.lt_of_not_le hl2))
            rcases Nat.eq_zero_or_pos k with hk0 | hk0
            · subst hk0
              simp only [List.drop_zero] at hl2
              exact hl2 hlen
            · exact h3 k hk hk0 hfrag
        · exact IH.1 hb
      · intro j hj0 hjp hpfx
        have hl2 : (p.drop j).length ≤ rep.length := by
          simp only [List.length_drop]
          omega
        exact absurd ((pfx_append_left hl2).mp hpfx) (h4 j hjp hj0)
    · -- skip: output is c :: (recursive output on the tail)
      rw [replChars_cons_skip hm]
      have hs2 : ¬ p <:+: rest := fun hi => hs (ifx_cons_of_ifx c hi)
      have IH := @replChars_no_create p pat rep hplen hlen h2 h3 h4 rest hs2
      have tailstep : ∀ j, 0 < j → j < p.length → p.drop j <+: c :: replChars pat rep rest →
          p.drop j <+: c :: rest := by
        intro j hj0 hjp hpfx
        rcases hdq : p.drop j with _ | ⟨d, q⟩
        · exact List.nil_prefix
        · rw [hdq] at hpfx
          rcases List.cons_prefix_cons.mp hpfx with ⟨hdc, hq⟩
          have hq' : q = p.drop (j + 1) := by
            rw [← List.tail_drop, hdq, List.tail_cons]
          by_cases hj1 : j + 1 < p.length
          · have h7 := IH.2 (j + 1) (by omega) hj1 (by rw [← hq']; exact hq)
            exact List.cons_prefix_cons.mpr ⟨hdc, by rw [hq']; exact h7⟩
          · have hqnil : q = [] := by
              have h8 := congrArg List.length hdq
              simp only [List.length_drop, List.length_cons] at h8
              have h9 : q.length = 0 := by omega
              exact List.length_eq_zero.mp h9
            subst hqnil
            exact List.cons_prefix_cons.mpr ⟨hdc, List.nil_prefix⟩
      constructor
      · intro hp
        rcases ifx_cons_cases hp with hpfx | hi
        · rcases hpc : p with _ | ⟨p₀, p'⟩
          · rw [hpc] at hplen; simp at hplen
          rw [hpc] at hpfx
          rcases List.cons_prefix_cons.mp hpfx with ⟨hdc, hq⟩
          by_cases hp1 : 1 < p.length
          · have hq1 : p.drop 1 = p' := by rw [hpc]; rfl
            have := IH.2 1 (by omega) hp1 (by rw [hq1]; exact hq)
            rw [hq1] at this
            exact hs (ifx_of_pfx (by rw [hpc, hdc]; exact List.cons_prefix_cons.mpr ⟨rfl, this⟩))
          · have hpnil : p' = [] := by
              rw [hpc] at hp1
              simp only [List.length_cons, Nat.not_lt] at hp1
              have h9 : p'.length = 0 := by omega
              exact List.length_eq_zero.mp h9
            refine hs (ifx_of_pfx ?_)
            rw [hpc, hpnil, hdc]
            exact List.cons_prefix_cons.mpr ⟨rfl, List.nil_prefix⟩
        · exact IH.1 hi
      · exact tailstep
termination_by s => s.length
decreasing_by
  all_goals (simp only [List.length_drop, List.length_cons]; omega)

/-- Replacing every occurrence of `p` itself by a "safe" replacement
leaves a text with no occurrence of `p` at all, and no proper tail of `p`
is a prefix of the output unless it was a prefix of the input. -/
theorem replChars_self_kills {p rep : List Char}
    (hplen : 0 < p.length)
    (hlen : p.length ≤ rep.length)
    (h2 : ∀ k, k < rep.length → ¬ p <+: rep.drop k)
    (h3 : ∀ k, k < rep.length → 0 < k → ¬ rep.drop k <+: p)
    (h4 : ∀ j, j < p.length → 0 < j → ¬ p.drop j <+: rep) :
    ∀ (s : List Char),
      (¬ p <:+: replChars p rep s) ∧
      (∀ j, 0 < j → j < p.length → p.drop j <+: replChars p rep s → p.drop j <+: s)
  | [] => by
    rw [replChars_nil]
    constructor
    · intro hp
      rw [List.infix_nil] at hp
      subst hp
      simp at hplen
    · exact fun j _ _ hp => hp
  | c :: rest => by
    have hpne : p ≠ [] := by
      intro h; subst h; simp at hplen
    by_cases hm : p <+: c :: rest
    · rw [replChars_cons_match hpne hm]
      have IH := replChars_self_kills hplen hlen h2 h3 h4 ((c :: rest).drop p.length)
      constructor
      · intro hp
        rcases ifx_append_cases hp with ⟨k, hk, hkp⟩ | hb
        · by_cases hl2 : p.length ≤ (rep.drop k).length
          · exact h2 k hk ((pfx_append_left hl2).mp hkp)
          · have hfrag : rep.drop k <+: p := pfx_of_long hkp (Nat.le_of_lt (Nat.lt_of_not_le hl2))
            rcases Nat.eq_zero_or_pos k with hk0 | hk0
            · subst hk0
              simp only [List.drop_zero] at hl2
              exact hl2 hlen
            · exact h3 k hk hk0 hfrag
        · exact IH.1 hb
      · intro j hj0 hjp hpfx
        have hl2 : (p.drop j).length ≤ rep.length := by
          simp only [List.length_drop]
          omega
        exact absurd ((pfx_append_left hl2).mp hpfx) (h4 j hjp hj0)
    · rw [replChars_cons_skip hm]
      have IH := replChars_self_kills hplen hlen h2 h3 h4 rest
      have tailstep : ∀ j, 0 < j → j < p.length → p.drop j <+: c :: replChars p rep rest →
          p.drop j <+: c :: rest := by
        intro j hj0 hjp hpfx
        rcases hdq : p.drop j with _ | ⟨d, q⟩
        · exact List.nil_prefix
        · rw [hdq] at hpfx
          rcases List.cons_prefix_cons.mp hpfx with ⟨hdc, hq⟩
          have hq' : q = p.drop (j + 1) := by
            rw [← List.tail_drop, hdq, List.tail_cons]
          by_cases hj1 : j + 1 < p.length
          · have h7 := IH.2 (j + 1) (by omega) hj1 (by rw [← hq']; exact hq)
            exact List.cons_prefix_cons.mpr ⟨hdc, by rw [hq']; exact h7⟩
          · have hqnil : q = [] := by
              have h8 := congrArg List.length hdq
              simp only [List.length_drop, List.length_cons] at h8
              have h9 : q.length = 0 := by omega
              exact List.length_eq_zero.mp h9
            subst hqnil
            exact List.cons_prefix_cons.mpr ⟨hdc, List.nil_prefix⟩
      constructor
      · intro hp
        rcases ifx_cons_cases hp with hpfx | hi
        · rcases hpc : p with _ | ⟨p₀, p'⟩
          · exact hpne hpc
          rw [hpc] at hpfx
          rcases List.cons_prefix_cons.mp hpfx with ⟨hdc, hq⟩
          by_cases hp1 : 1 < p.length
          · have hq1 : p.drop 1 = p' := by rw [hpc]; rfl
            have h7 := IH.2 1 (by omega) hp1 (by rw [hq1, hpc]; exact hq)
            rw [hq1] at h7
            exact hm (by rw [hpc, hdc]; exact List.cons_prefix_cons.mpr ⟨rfl, h7⟩)
          · have hpnil : p' = [] := by
              rw [hpc] at hp1
              simp only [List.length_cons, Nat.not_lt] at hp1
              have h9 : p'.length = 0 := by omega
              exact List.length_eq_zero.mp h9
            refine hm ?_
            rw [hpc, hpnil, hdc]
            exact List.cons_prefix_cons.mpr ⟨rfl, List.nil_prefix⟩
        · exact IH.1 hi
      · exact tailstep
termination_by s => s.length
decreasing_by
  all_goals (simp only [List.length_drop, List.length_cons]; omega)

/-! ### Consequences for the concrete patterns of the script -/

theorem no_ds_after_pass3 (l : Line) : ¬ dollarSp <:+: replChars dollarSp blueRep l :=
  (replChars_self_kills (by decide) (by decide)
    (by decide) (by decide) (by decide) l).1

theorem ds_of_promptMark {l : Line} (h : promptMark <:+: l) : dollarSp <:+: l :=
  List.IsInfix.trans (by decide : dollarSp <:+: promptMark) h

theorem rn_of_rnJson {l : Line} (h : rnJson <:+: l) : rnEsc <:+: l :=
  List.IsInfix.trans (by decide : rnEsc <:+: rnJson) h

theorem pres_rn_dim {s : Line} (h : ¬ rnEsc <:+: s) :
    ¬ rnEsc <:+: replChars dollarSp dimRep s :=
  (@replChars_no_create rnEsc dollarSp dimRep (by decide) (by decide)
    (by decide) (by decide) (by decide) s h).1

theorem pres_rn_blue {s : Line} (h : ¬ rnEsc <:+: s) :
    ¬ rnEsc <:+: replChars dollarSp blueRep s :=
  (@replChars_no_create rnEsc dollarSp blueRep (by decide) (by decide)
    (by decide) (by decide) (by decide) s h).1

/-- A line containing neither `$ ` nor `\r\n` is left alone by a full
iteration of the first loop, whatever its successor. -/
theorem fix1_id {cur : Line} (next? : Option Line)
    (hds : ¬ dollarSp <:+: cur) (hrn : ¬ rnEsc <:+: cur) :
    fix1 cur next? = cur := by
  unfold fix1
  rw [if_neg (fun hp => hds (ds_of_promptMark hp))]
  exact replChars_of_not_ifx hrn

/-! ### Index-level descriptions of the two loops -/

theorem pass12_length : ∀ ls : List Line, (pass12 ls).length = ls.length
  | [] => rfl
  | c :: rest => by simp [pass12, pass12_length rest]

theorem pass12_getElem? : ∀ (ls : List Line) (i : Nat),
    (pass12 ls)[i]? = (ls[i]?).map (fun c => fix1 c ls[i + 1]?)
  | [], i => by simp [pass12]
  | c :: rest, 0 => by
    cases rest <;> simp [pass12, fix1]
  | c :: rest, i + 1 => by
    simp only [pass12, List.getElem?_cons_succ]
    exact pass12_getElem? rest i

theorem pass3_getElem? (ls : List Line) (i : Nat) :
    (pass3 ls)[i]? = (ls[i]?).map (replChars dollarSp blueRep) := by
  simp [pass3]

theorem recolor_length (ls : List Line) : (recolor ls).length = ls.length := by
  simp [recolor, pass3, pass12_length]

theorem recolor_getElem? (ls : List Line) (i : Nat) :
    (recolor ls)[i]? = (ls[i]?).map (fun c => replChars dollarSp blueRep (fix1 c ls[i + 1]?)) := by
  rw [recolor, pass3_getElem?, pass12_getElem?]
  cases ls[i]? <;> simp

/-! ### The recoloring stage on clean lines -/

theorem pass12_mem : ∀ {ls : List Line} {l' : Line}, l' ∈ pass12 ls →
    ∃ cur next?, cur ∈ ls ∧ (∀ n, next? = some n → n ∈ ls) ∧ l' = fix1 cur next?
  | [], l', h => by simp [pass12] at h
  | c :: rest, l', h => by
    simp only [pass12, List.mem_cons] at h
    rcases h with h | h
    · refine ⟨c, rest.head?, List.mem_cons_self c rest, ?_, h⟩
      intro n hn
      exact List.mem_cons_of_mem c (List.mem_of_mem_head? (hn ▸ rfl))
    · rcases pass12_mem h with ⟨cur, next?, hc, hn, he⟩
      exact ⟨cur, next?, List.mem_cons_of_mem c hc,
        fun n h2 => List.mem_cons_of_mem c (hn n h2), he⟩

theorem fix1_no_rn {cur : Line} {next? : Option Line}
    (hcur : ¬ rnEsc <:+: cur)
    (hnext : ∀ n, next? = some n → ¬ rnEsc <:+: n) :
    ¬ rnEsc <:+: fix1 cur next? := by
  have hmid : ∀ m : Line, ¬ rnEsc <:+: m → ¬ rnEsc <:+: replChars rnEsc resetRep m := by
    intro m hm
    rw [replChars_of_not_ifx hm]
    exact hm
  show ¬ rnEsc <:+: replChars rnEsc resetRep _
  by_cases hp : promptMark <:+: cur
  · rw [if_pos hp]
    cases next? with
    | none => exact hmid cur hcur
    | some nxt =>
      have hn := hnext nxt rfl
      have h1 : ¬ rnJson <:+: nxt := fun hj => hn (rn_of_rnJson hj)
      show ¬ rnEsc <:+: replChars rnEsc resetRep (promptFix cur nxt)
      unfold promptFix
      rw [if_neg h1]
      by_cases h2 : hashQ <:+: nxt
      · rw [if_pos h2]
        exact hmid _ (pres_rn_dim hcur)
      · rw [if_neg h2]
        exact hmid cur hcur
  · rw [if_neg hp]
    exact hmid cur hcur

/-- After the full recoloring stage on a recording none of whose lines
contains the escaped `\r\n`, every output line contains neither `$ ` nor
`\r\n`. -/
theorem recolor_clean {ls : List Line} (h : ∀ l ∈ ls, ¬ rnEsc <:+: l) :
    ∀ l' ∈ recolor ls, ¬ dollarSp <:+: l' ∧ ¬ rnEsc <:+: l' := by
  intro l' hl'
  rw [recolor, pass3] at hl'
  rcases List.mem_map.mp hl' with ⟨m, hm, rfl⟩
  rcases pass12_mem hm with ⟨cur, next?, hc, hn, rfl⟩
  have hno : ¬ rnEsc <:+: fix1 cur next? :=
    fix1_no_rn (h cur hc) (fun n h2 => h n (hn n h2))
  exact ⟨no_ds_after_pass3 _, pres_rn_blue hno⟩

theorem pass12_fixed : ∀ {ls : List Line},
    (∀ l ∈ ls, ¬ dollarSp <:+: l ∧ ¬ rnEsc <:+: l) → pass12 ls = ls
  | [], _ => rfl
  | c :: rest, h => by
    have hc := h c (List.mem_cons_self c rest)
    rw [pass12, fix1_id rest.head? hc.1 hc.2,
      pass12_fixed (fun l hl => h l (List.mem_cons_of_mem c hl))]

theorem recolor_fixed {ls : List Line}
    (h : ∀ l ∈ ls, ¬ dollarSp <:+: l ∧ ¬ rnEsc <:+: l) :
    recolor ls = ls := by
  rw [recolor, pass12_fixed h, pass3]
  have h2 : ∀ l ∈ ls, replChars dollarSp blueRep l = l :=
    fun l hl => replChars_of_not_ifx (h l hl).1
  calc ls.map (replChars dollarSp blueRep) = ls.map id := List.map_congr_left h2
    _ = ls := List.map_id ls

/-! ### Counting pattern occurrences -/

theorem occCount_nil (p : List Char) : occCount p [] = 0 := by simp [occCount]

theorem occCount_cons (p : List Char) (c : Char) (t : List Char) :
    occCount p (c :: t) = (if p.isPrefixOf (c :: t) then 1 else 0) + occCount p t := by
  rw [occCount, occCount, List.length_cons, List.range_succ_eq_map, List.countP_cons,
    List.countP_map]
  have h1 : ∀ k : Nat,
      ((fun k => p.isPrefixOf ((c :: t).drop k)) ∘ Nat.succ) k = true ↔
        (fun k => p.isPrefixOf (t.drop k)) k = true := fun k => Iff.rfl
  rw [List.countP_congr (fun k _ => h1 k)]
  simp only [List.drop_zero]
  omega

theorem occCount_cons_ge (p : List Char) (c : Char) (t : List Char) :
    occCount p t ≤ occCount p (c :: t) := by
  rw [occCount_cons]
  omega

theorem occCount_append_ge (p : List Char) : ∀ (a b : List Char),
    occCount p b ≤ occCount p (a ++ b)
  | [], b => Nat.le_refl _
  | c :: a', b => by
    have h1 := occCount_append_ge p a' b
    have h2 := occCount_cons_ge p c (a' ++ b)
    simpa using Nat.le_trans h1 h2

/-- Prefixes built out of characters the pattern does not start with are
kept verbatim by `replChars`. -/
theorem replChars_pres_pfx {pat rep : List Char} : ∀ {q t : List Char},
    (∀ x ∈ q, x ∉ pat) → q <+: t → q <+: replChars pat rep t
  | [], t, _, _ => List.nil_prefix
  | d :: q', t, hd, hq => by
    rcases hq with ⟨u, hu⟩
    subst hu
    rcases hpat : pat with _ | ⟨pc, pat'⟩
    · rw [replChars_pat_nil]
      exact ⟨u, rfl⟩
    · rw [← hpat]
      have hnm : ¬ pat <+: d :: (q' ++ u) := by
        intro hp
        rcases hpat ▸ hp with ⟨v, hv⟩
        have : pc = d := by injection hv with h1 _
        exact hd d (List.mem_cons_self d q') (by rw [hpat, this]; exact List.mem_cons_self d pat')
      rw [List.cons_append, replChars_cons_skip hnm]
      have IH := @replChars_pres_pfx pat rep q' (q' ++ u)
        (fun x hx => hd x (List.mem_cons_of_mem d hx)) ⟨u, rfl⟩
      exact List.cons_prefix_cons.mpr ⟨rfl, IH⟩

/-- Dropping a matched pattern made of characters foreign to `p` does not
change the number of occurrences of `p`. -/
theorem occCount_drop_disjoint {p : List Char} (hp : p ≠ []) :
    ∀ (pat s : List Char), (∀ x ∈ p, x ∉ pat) → pat <+: s →
      occCount p s = occCount p (s.drop pat.length)
  | [], s, _, _ => by simp
  | pc :: pat', s, hdisj, hpfx => by
    rcases hpfx with ⟨u, hu⟩
    subst hu
    rw [List.cons_append, occCount_cons]
    have h0 : ¬ p.isPrefixOf (pc :: (pat' ++ u)) = true := by
      intro hb
      rcases isPrefixOf_iff_pfx.mp hb with ⟨v, hv⟩
      rcases hq : p with _ | ⟨p₀, p'⟩
      · exact hp hq
      rw [hq] at hv
      have hpc : p₀ = pc := by injection hv with h1 _
      exact hdisj p₀ (by rw [hq]; exact List.mem_cons_self p₀ p')
        (by rw [hpc]; exact List.mem_cons_self pc pat')
    rw [if_neg h0, Nat.zero_add]
    have IH := occCount_drop_disjoint hp pat' (pat' ++ u)
      (fun x hx h2 => hdisj x hx (List.mem_cons_of_mem pc h2)) ⟨u, rfl⟩
    rw [IH]
    simp [List.drop_left']

/-- Replacing a pattern whose characters are disjoint from those of `p`
never loses an occurrence of `p`. -/
theorem occCount_le_replChars {p pat rep : List Char}
    (hp : p ≠ []) (hdisj : ∀ x ∈ p, x ∉ pat) :
    ∀ s : List Char, occCount p s ≤ occCount p (replChars pat rep s)
  | [] => by rw [replChars_nil]
  | c :: rest => by
    rcases hpat : pat with _ | ⟨pc, pat'⟩
    · subst hpat
      rw [replChars_pat_nil]
    · subst hpat
      by_cases hm : (pc :: pat') <+: c :: rest
      · rw [replChars_cons_match (by simp) hm]
        have h1 := occCount_drop_disjoint hp (pc :: pat') (c :: rest) hdisj hm
        have IH := @occCount_le_replChars p (pc :: pat') rep hp hdisj
          ((c :: rest).drop (pc :: pat').length)
        have h2 := occCount_append_ge p rep
          (replChars (pc :: pat') rep ((c :: rest).drop (pc :: pat').length))
        omega
      · rw [replChars_cons_skip hm]
        rw [occCount_cons, occCount_cons]
        have IH := @occCount_le_replChars p (pc :: pat') rep hp hdisj rest
        have htrans : p.isPrefixOf (c :: rest) = true →
            p.isPrefixOf (c :: replChars (pc :: pat') rep rest) = true := by
          intro hb
          rcases hq : p with _ | ⟨p₀, p'⟩
          · exact absurd hq hp
          rw [hq] at hb
          rcases List.cons_prefix_cons.mp (isPrefixOf_iff_pfx.mp hb) with ⟨h3, h4⟩
          refine isPrefixOf_iff_pfx.mpr ?_
          refine List.cons_prefix_cons.mpr ⟨h3, ?_⟩
          exact replChars_pres_pfx
            (fun x hx => hdisj x (by rw [hq]; exact List.mem_cons_of_mem p₀ hx)) h4
        by_cases hc : p.isPrefixOf (c :: rest) = true
        · rw [if_pos hc, if_pos (htrans hc)]
          omega
        · rw [if_neg hc]
          split <;> omega
termination_by s => s.length
decreasing_by
  all_goals (simp only [List.length_drop, List.length_cons]; omega)

/-! ### The `\r\n` annotation, occurrence by occurrence -/

theorem occCount_rn_head (t : List Char) :
    occCount rnEsc ('\\' :: 'r' :: '\\' :: 'n' :: t) = 1 + occCount rnEsc t := by
  rw [occCount_cons, occCount_cons, occCount_cons, occCount_cons]
  have c1 : rnEsc.isPrefixOf ('\\' :: 'r' :: '\\' :: 'n' :: t) = true := by
    simp [rnEsc, List.isPrefixOf]
  have c2 : rnEsc.isPrefixOf ('r' :: '\\' :: 'n' :: t) = false := by
    simp [rnEsc, List.isPrefixOf]
  have c3 : rnEsc.isPrefixOf ('\\' :: 'n' :: t) = false := by
    simp [rnEsc, List.isPrefixOf]
  have c4 : rnEsc.isPrefixOf ('n' :: t) = false := by
    simp [rnEsc, List.isPrefixOf]
  rw [c1, c2, c3, c4]
  simp

/-- The annotation never loses an occurrence of `\r\n`: each one is
rewritten to `\r\n\u001b[0m`, which still starts with `\r\n`. -/
theorem occCount_rn_annotate : ∀ s : List Char,
    occCount rnEsc s ≤ occCount rnEsc (replChars rnEsc resetRep s)
  | [] => by rw [replChars_nil]
  | c :: rest => by
    by_cases hm : rnEsc <+: c :: rest
    · rw [replChars_cons_match (by decide) hm]
      rcases hm with ⟨t, ht⟩
      have hdrop : (c :: rest).drop rnEsc.length = t := by
        rw [← ht]
        exact List.drop_left _ _
      have h1 : occCount rnEsc (c :: rest) = 1 + occCount rnEsc t := by
        rw [← ht]
        exact occCount_rn_head t
      have h2 : 1 + occCount rnEsc (replChars rnEsc resetRep t) ≤
          occCount rnEsc (resetRep ++ replChars rnEsc resetRep t) := by
        have h3 : resetRep ++ replChars rnEsc resetRep t =
            '\\' :: 'r' :: '\\' :: 'n' :: (esc0mEsc ++ replChars rnEsc resetRep t) := rfl
        rw [h3, occCount_rn_head]
        have h4 := occCount_append_ge rnEsc esc0mEsc (replChars rnEsc resetRep t)
        omega
      have IH := occCount_rn_annotate ((c :: rest).drop rnEsc.length)
      rw [hdrop] at IH ⊢
      omega
    · rw [replChars_cons_skip hm]
      rw [occCount_cons, occCount_cons]
      have IH := occCount_rn_annotate rest
      have h0 : ¬ rnEsc.isPrefixOf (c :: rest) = true :=
        fun hb => hm (isPrefixOf_iff_pfx.mp hb)
      rw [if_neg h0]
      split <;> omega
termination_by s => s.length
decreasing_by
  all_goals (simp only [rnEsc, List.length_drop, List.length_cons]; omega)

/-- A proper tail of `\r\n` can start the annotated text only if it
started the original text. -/
theorem annotate_tail_pfx : ∀ (t : List Char) (j : Nat), 0 < j → j < rnEsc.length →
    rnEsc.drop j <+: replChars rnEsc resetRep t → rnEsc.drop j <+: t
  | [], j, _, _, hp => by
    rw [replChars_nil] at hp
    exact hp
  | c :: rest, j, h0, hj, hp => by
    have hj4 : j < 4 := by
      have h13 : rnEsc.length = 4 := by decide
      omega
    by_cases hm : rnEsc <+: c :: rest
    · rw [replChars_cons_match (by decide) hm] at hp
      exfalso
      have hl : (rnEsc.drop j).length ≤ resetRep.length := by
        have e1 : rnEsc.length = 4 := by decide
        have e2 : resetRep.length = 13 := by decide
        simp only [List.length_drop]
        omega
      have h5 := (pfx_append_left hl).mp hp
      have hall : ∀ k, k < 4 → (0 < k → ¬ rnEsc.drop k <+: resetRep) := by decide
      exact hall j hj4 h0 h5
    · rw [replChars_cons_skip hm] at hp
      rcases hdq : rnEsc.drop j with _ | ⟨d, q⟩
      · exact List.nil_prefix
      · rw [hdq] at hp
        rcases List.cons_prefix_cons.mp hp with ⟨hdc, hq⟩
        have hq' : q = rnEsc.drop (j + 1) := by
          rw [← List.tail_drop, hdq, List.tail_cons]
        by_cases hj1 : j + 1 < rnEsc.length
        · have h7 := annotate_tail_pfx rest (j + 1) (by omega) hj1 (by rw [← hq']; exact hq)
          exact List.cons_prefix_cons.mpr ⟨hdc, by rw [hq']; exact h7⟩
        · have hqnil : q = [] := by
            have h8 := congrArg List.length hdq
            have e1 : rnEsc.length = 4 := by decide
            simp only [List.length_drop, List.length_cons] at h8
            have h9 : q.length = 0 := by omega
            exact List.length_eq_zero.mp h9
          subst hqnil
          exact List.cons_prefix_cons.mpr ⟨hdc, List.nil_prefix⟩

/-- In the annotated text, every occurrence of `\r\n` is immediately
followed by the escaped reset `\u001b[0m`. -/
theorem annotate_followed : ∀ (s a b : List Char),
    replChars rnEsc resetRep s = a ++ (rnEsc ++ b) → esc0mEsc <+: b
  | [], a, b, h => by
    rw [replChars_nil] at h
    exfalso
    have h9 := congrArg List.length h.symm
    have e1 : rnEsc.length = 4 := by decide
    simp only [List.length_nil, List.length_append] at h9
    omega
  | c :: rest, a, b, h => by
    by_cases hm : rnEsc <+: c :: rest
    · rw [replChars_cons_match (by decide) hm] at h
      have e2 : resetRep.length = 13 := by decide
      by_cases hla : a.length < resetRep.length
      · rcases Nat.eq_zero_or_pos a.length with ha0 | ha0
        · have ha : a = [] := List.length_eq_zero.mp ha0
          subst ha
          simp only [List.nil_append] at h
          have h2 : rnEsc ++ (esc0mEsc ++ replChars rnEsc resetRep ((c :: rest).drop rnEsc.length)) =
              rnEsc ++ b := by
            rw [← h]
            rfl
          have h3 := List.append_cancel_left h2
          exact ⟨_, h3⟩
        · exfalso
          have hd := congrArg (List.drop a.length) h
          rw [List.drop_append_of_le_length (Nat.le_of_lt hla), List.drop_left] at hd
          have hpfx : rnEsc <+: resetRep.drop a.length ++
              replChars rnEsc resetRep ((c :: rest).drop rnEsc.length) := ⟨b, hd.symm⟩
          by_cases hl4 : rnEsc.length ≤ (resetRep.drop a.length).length
          · have hall : ∀ k, k < 13 → (0 < k → ¬ rnEsc <+: resetRep.drop k) := by decide
            exact hall a.length (by omega) ha0 ((pfx_append_left hl4).mp hpfx)
          · have hall2 : ∀ k, k < 13 → ¬ resetRep.drop k <+: rnEsc := by decide
            exact hall2 a.length (by omega)
              (pfx_of_long hpfx (Nat.le_of_lt (Nat.lt_of_not_le hl4)))
      · have hR : resetRep <+: a := by
          have h5 : resetRep <+: a ++ (rnEsc ++ b) :=
            h ▸ ⟨replChars rnEsc resetRep ((c :: rest).drop rnEsc.length), rfl⟩
          exact (pfx_append_left (by omega)).mp h5
        rcases hR with ⟨a', ha'⟩
        rw [← ha', List.append_assoc] at h
        have h6 := List.append_cancel_left h
        exact annotate_followed ((c :: rest).drop rnEsc.length) a' b h6
    · rw [replChars_cons_skip hm] at h
      rcases a with _ | ⟨a₀, a'⟩
      · simp only [List.nil_append] at h
        exfalso
        have hpfx : rnEsc <+: c :: replChars rnEsc resetRep rest := ⟨b, h.symm⟩
        have hpfx2 : ('\\' : Char) :: [ 'r', '\\', 'n' ] <+: c :: replChars rnEsc resetRep rest :=
          hpfx
        rcases List.cons_prefix_cons.mp hpfx2 with ⟨hc1, htl⟩
        have h8 : rnEsc.drop 1 <+: replChars rnEsc resetRep rest := htl
        have h9 := annotate_tail_pfx rest 1 (by decide) (by decide) h8
        refine hm ?_
        exact List.cons_prefix_cons.mpr ⟨hc1, h9⟩
      · simp only [List.cons_append] at h
        injection h with h1 h2
        exact annotate_followed rest a' b h2
termination_by s => s.length
decreasing_by
  all_goals (simp only [rnEsc, List.length_drop, List.length_cons]; omega)

/-! ### Position bookkeeping for the deletion loop -/

theorem keepNotIn_eq_append (js : List Nat) : ∀ (n : Nat) (k : Nat) (l : List Line),
    n ≤ l.length → (∀ j ∈ js, k + n ≤ j) →
    keepNotIn js k l = l.take n ++ keepNotIn js (k + n) (l.drop n)
  | 0, k, l, _, _ => by simp
  | n + 1, k, l, hn, hjs => by
    cases l with
    | nil => simp at hn
    | cons x xs =>
      have hk : k ∉ js := by
        intro hmem
        have := hjs k hmem
        omega
      rw [keepNotIn, if_neg hk]
      have IH := keepNotIn_eq_append js n (k + 1) xs (by simpa using Nat.lt_succ.mp (Nat.lt_of_lt_of_le (Nat.lt_succ_self n) hn)) (fun j hj => by have := hjs j hj; omega)
      rw [IH]
      simp only [List.take_succ_cons, List.drop_succ_cons, List.cons_append]
      have : k + 1 + n = k + (n + 1) := by omega
      rw [this]

theorem keepNotIn_below (js : List Nat) (j : Nat) : ∀ (l : List Line) (k : Nat), j < k →
    keepNotIn (j :: js) k l = keepNotIn js k l
  | [], _, _ => rfl
  | x :: xs, k, hk => by
    have h1 : k ≠ j := by omega
    by_cases h2 : k ∈ js
    · rw [keepNotIn, keepNotIn, if_pos (List.mem_cons_of_mem j h2), if_pos h2,
        keepNotIn_below js j xs (k + 1) (by omega)]
    · have h3 : k ∉ j :: js := by
        simp only [List.mem_cons]
        rintro (h | h)
        · exact h1 h
        · exact h2 h
      rw [keepNotIn, keepNotIn, if_neg h3, if_neg h2,
        keepNotIn_below js j xs (k + 1) (by omega)]

theorem eraseIdx_take_succ : ∀ (l : List Line) (j : Nat), j < l.length →
    (l.take (j + 1)).eraseIdx j = l.take j
  | [], j, h => by simp at h
  | x :: xs, 0, _ => by simp
  | x :: xs, j + 1, h => by
    simp only [List.take_succ_cons, List.eraseIdx_cons_succ]
    rw [eraseIdx_take_succ xs j (by simp at h; omega)]

theorem keepNotIn_nil : ∀ (l : List Line) (k : Nat), keepNotIn [] k l = l
  | [], _ => rfl
  | x :: xs, k => by
    rw [keepNotIn, if_neg (List.not_mem_nil k), keepNotIn_nil xs (k + 1)]

theorem delRev_eq_keepNotIn : ∀ (js : List Nat) (l : List Line),
    List.Pairwise (· < ·) js → (∀ j ∈ js, j < l.length) →
    js.reverse.foldl (fun acc j => acc.eraseIdx j) l = keepNotIn js 0 l
  | [], l, _, _ => by simp [keepNotIn_nil]
  | j :: rest, l, hp, hb => by
    have hpr := List.pairwise_cons.mp hp
    have hjl : j < l.length := hb j (List.mem_cons_self j rest)
    rw [List.reverse_cons, List.foldl_append]
    rw [delRev_eq_keepNotIn rest l hpr.2 (fun x hx => hb x (List.mem_cons_of_mem j hx))]
    simp only [List.foldl_cons, List.foldl_nil]
    have hka : keepNotIn rest 0 l = l.take (j + 1) ++ keepNotIn rest (j + 1) (l.drop (j + 1)) := by
      have := keepNotIn_eq_append rest (j + 1) 0 l (by omega) (fun x hx => by
        have := hpr.1 x hx
        omega)
      simpa using this
    have hkb : keepNotIn (j :: rest) 0 l =
        l.take j ++ keepNotIn rest (j + 1) (l.drop (j + 1)) := by
      have h1 := keepNotIn_eq_append (j :: rest) j 0 l (by omega) (fun x hx => by
        rcases List.mem_cons.mp hx with h | h
        · omega
        · have := hpr.1 x h
          omega)
      simp only [Nat.zero_add] at h1
      rw [h1, List.drop_eq_getElem_cons hjl, keepNotIn,
        if_pos (List.mem_cons_self j rest), keepNotIn_below rest j _ (j + 1) (by omega)]
    rw [hka, hkb, List.eraseIdx_append_of_lt_length (by simp; omega), eraseIdx_take_succ l j hjl]

theorem keepNotIn_src : ∀ (l : List Line) (js : List Nat) (k : Nat) (p : Nat) (q : Line),
    (keepNotIn js k l)[p]? = some q → ∃ j, p ≤ j ∧ (k + j) ∉ js ∧ l[j]? = some q
  | [], js, k, p, q, h => by simp [keepNotIn] at h
  | x :: xs, js, k, p, q, h => by
    by_cases hk : k ∈ js
    · rw [keepNotIn, if_pos hk] at h
      rcases keepNotIn_src xs js (k + 1) p q h with ⟨j, hpj, hnk, hq⟩
      exact ⟨j + 1, by omega, by have : k + (j + 1) = k + 1 + j := by omega
                                 rw [this]; exact hnk, by simpa using hq⟩
    · rw [keepNotIn, if_neg hk] at h
      cases p with
      | zero =>
        simp only [List.getElem?_cons_zero, Option.some_inj] at h
        refine ⟨0, Nat.le_refl 0, by simpa using hk, ?_⟩
        simp [h]
      | succ p' =>
        simp only [List.getElem?_cons_succ] at h
        rcases keepNotIn_src xs js (k + 1) p' q h with ⟨j, hpj, hnk, hq⟩
        exact ⟨j + 1, by omega, by have : k + (j + 1) = k + 1 + j := by omega
                                   rw [this]; exact hnk, by simpa using hq⟩

theorem keepNotIn_fwd : ∀ (l : List Line) (js : List Nat) (k : Nat) (j : Nat) (q : Line),
    (k + j) ∉ js → l[j]? = some q → ∃ p : Nat, (keepNotIn js k l)[p]? = some q
  | [], js, k, j, q, _, h => by simp at h
  | x :: xs, js, k, j, q, hnk, h => by
    cases j with
    | zero =>
      simp only [List.getElem?_cons_zero, Option.some_inj] at h
      have hk : k ∉ js := by simpa using hnk
      rw [keepNotIn, if_neg hk]
      refine ⟨0, ?_⟩
      simp [h]
    | succ j' =>
      simp only [List.getElem?_cons_succ] at h
      have hnk' : (k + 1) + j' ∉ js := by
        have : k + 1 + j' = k + (j' + 1) := by omega
        rw [this]
        exact hnk
      rcases keepNotIn_fwd xs js (k + 1) j' q hnk' h with ⟨p, hp⟩
      by_cases hk : k ∈ js
      · rw [keepNotIn, if_pos hk]
        exact ⟨p, hp⟩
      · rw [keepNotIn, if_neg hk]
        refine ⟨p + 1, ?_⟩
        simpa using hp

/-! ### The collapser's scan loop -/

theorem matchIdxsFrom_bounds : ∀ (ls : List Line) (k : Nat),
    ∀ i ∈ matchIdxsFrom k ls, k ≤ i ∧ i < k + ls.length
  | [], k, i, h => by simp [matchIdxsFrom] at h
  | l :: rest, k, i, h => by
    rw [matchIdxsFrom] at h
    by_cases hm : marker <:+: l
    · rw [if_pos hm] at h
      rcases List.mem_cons.mp h with h | h
      · subst h
        simp only [List.length_cons]
        omega
      · have h2 := matchIdxsFrom_bounds rest (k + 1) i h
        simp only [List.length_cons]
        omega
    · rw [if_neg hm] at h
      have h2 := matchIdxsFrom_bounds rest (k + 1) i h
      simp only [List.length_cons]
      omega

theorem matchIdxsFrom_sorted : ∀ (ls : List Line) (k : Nat),
    List.Pairwise (· < ·) (matchIdxsFrom k ls)
  | [], k => by simp [matchIdxsFrom]
  | l :: rest, k => by
    rw [matchIdxsFrom]
    by_cases hm : marker <:+: l
    · rw [if_pos hm]
      refine List.pairwise_cons.mpr ⟨?_, matchIdxsFrom_sorted rest (k + 1)⟩
      intro x hx
      have h2 := (matchIdxsFrom_bounds rest (k + 1) x hx).1
      omega
    · rw [if_neg hm]
      exact matchIdxsFrom_sorted rest (k + 1)

theorem matchIdxsFrom_spec : ∀ (ls : List Line) (k i : Nat) (l : Line),
    ls[i]? = some l → ((k + i) ∈ matchIdxsFrom k ls ↔ marker <:+: l)
  | [], _, i, l, h => by simp at h
  | x :: rest, k, 0, l, h => by
    simp only [List.getElem?_cons_zero, Option.some_inj] at h
    rw [← h]
    rw [matchIdxsFrom]
    by_cases hm : marker <:+: x
    · rw [if_pos hm]
      simp [hm]
    · rw [if_neg hm]
      simp only [Nat.add_zero]
      constructor
      · intro hmem
        have h2 := (matchIdxsFrom_bounds rest (k + 1) k hmem).1
        exact absurd h2 (by omega)
      · intro h2
        exact absurd h2 hm
  | x :: rest, k, i + 1, l, h => by
    simp only [List.getElem?_cons_succ] at h
    have IH := matchIdxsFrom_spec rest (k + 1) i l h
    have heq : k + (i + 1) = (k + 1) + i := by omega
    rw [matchIdxsFrom]
    by_cases hm : marker <:+: x
    · rw [if_pos hm, heq]
      constructor
      · intro hmem
        rcases List.mem_cons.mp hmem with h2 | h2
        · exact absurd h2 (by omega)
        · exact IH.mp h2
      · intro h2
        exact List.mem_cons_of_mem k (IH.mpr h2)
    · rw [if_neg hm, heq]
      exact IH

theorem matchIdxsFrom_length : ∀ (ls : List Line) (k : Nat),
    (matchIdxsFrom k ls).length = (ls.filter (fun l => decide (marker <:+: l))).length
  | [], _ => rfl
  | l :: rest, k => by
    rw [matchIdxsFrom, List.filter_cons]
    by_cases hm : marker <:+: l
    · rw [if_pos hm, if_pos (by simpa using hm)]
      simp [matchIdxsFrom_length rest (k + 1)]
    · rw [if_neg hm, if_neg (by simpa using hm)]
      exact matchIdxsFrom_length rest (k + 1)

theorem matchIdxsFrom_nil : ∀ (ls : List Line) (k : Nat),
    matchIdxsFrom k ls = [] ↔ ∀ l ∈ ls, ¬ marker <:+: l
  | [], k => by simp [matchIdxsFrom]
  | l :: rest, k => by
    rw [matchIdxsFrom]
    by_cases hm : marker <:+: l
    · rw [if_pos hm]
      exact ⟨fun h => (List.cons_ne_nil _ _ h).elim,
        fun h => (h l (List.mem_cons_self l rest) hm).elim⟩
    · rw [if_neg hm, matchIdxsFrom_nil rest (k + 1)]
      constructor
      · intro h x hx
        rcases List.mem_cons.mp hx with h2 | h2
        · subst h2
          exact hm
        · exact h x h2
      · intro h x hx
        exact h x (List.mem_cons_of_mem l hx)

theorem scanFrom_dels : ∀ (ls : List Line) (k : Nat) (st st' : ScanSt),
    scanFrom k ls st = .ok st' → st'.dels = st.dels ++ matchIdxsFrom k ls
  | [], k, st, st', h => by
    simp only [scanFrom, Except.ok.injEq] at h
    subst h
    simp [matchIdxsFrom]
  | l :: rest, k, st, st', h => by
    rw [scanFrom] at h
    by_cases hm : marker <:+: l
    · rw [if_pos hm] at h
      rcases he : lineEntries l with e | ⟨es, data⟩
      · rw [he] at h
        simp at h
      · rw [he] at h
        have IH := scanFrom_dels rest (k + 1)
          ⟨st.packages ++ es, some (st.row?.getD data), st.dels ++ [ k ]⟩ st' h
        rw [matchIdxsFrom, if_pos hm]
        simp only at IH
        rw [IH, List.append_assoc]
        rfl
    · rw [if_neg hm] at h
      rw [matchIdxsFrom, if_neg hm]
      exact scanFrom_dels rest (k + 1) st st' h

theorem scanFrom_packages : ∀ (ls : List Line) (k : Nat) (st st' : ScanSt),
    scanFrom k ls st = .ok st' →
    ∃ ess, (ls.filter (fun l => decide (marker <:+: l))).mapM entriesOfLine = Except.ok ess ∧
      st'.packages = st.packages ++ ess.flatten
  | [], k, st, st', h => by
    simp only [scanFrom, Except.ok.injEq] at h
    subst h
    exact ⟨[], by rfl, by simp⟩
  | l :: rest, k, st, st', h => by
    rw [scanFrom] at h
    by_cases hm : marker <:+: l
    · rw [if_pos hm] at h
      rcases he : lineEntries l with e | ⟨es, data⟩
      · rw [he] at h
        simp at h
      · rw [he] at h
        rcases scanFrom_packages rest (k + 1)
          ⟨st.packages ++ es, some (st.row?.getD data), st.dels ++ [ k ]⟩ st' h with
          ⟨ess, hmap, hpk⟩
        refine ⟨es :: ess, ?_, ?_⟩
        · rw [List.filter_cons, if_pos (by simpa using hm), List.mapM_cons]
          rw [show entriesOfLine l = Except.ok es from by rw [entriesOfLine, he]; rfl]
          rw [hmap]
          rfl
        · simp only at hpk
          rw [hpk, List.flatten, List.append_assoc]
    · rw [if_neg hm] at h
      rw [List.filter_cons, if_neg (by simpa using hm)]
      exact scanFrom_packages rest (k + 1) st st' h

theorem scanFrom_row_some : ∀ (ls : List Line) (k : Nat) (st st' : ScanSt) (r : JVal),
    scanFrom k ls st = .ok st' → st.row? = some r → st'.row? = some r
  | [], k, st, st', r, h, hr => by
    simp only [scanFrom, Except.ok.injEq] at h
    subst h
    exact hr
  | l :: rest, k, st, st', r, h, hr => by
    rw [scanFrom] at h
    by_cases hm : marker <:+: l
    · rw [if_pos hm] at h
      rcases he : lineEntries l with e | ⟨es, data⟩
      · rw [he] at h
        simp at h
      · rw [he] at h
        refine scanFrom_row_some rest (k + 1) _ st' r h ?_
        simp [hr]
    · rw [if_neg hm] at h
      exact scanFrom_row_some rest (k + 1) st st' r h hr

theorem scanFrom_row_none : ∀ (ls : List Line) (k : Nat) (st st' : ScanSt),
    scanFrom k ls st = .ok st' → st.row? = none →
    (matchIdxsFrom k ls = [] ∧ st'.row? = none) ∨
    (∃ f es d, (ls.filter (fun l => decide (marker <:+: l))).head? = some f ∧
      lineEntries f = .ok (es, d) ∧ st'.row? = some d)
  | [], k, st, st', h, hr => by
    simp only [scanFrom, Except.ok.injEq] at h
    subst h
    exact Or.inl ⟨rfl, hr⟩
  | l :: rest, k, st, st', h, hr => by
    rw [scanFrom] at h
    by_cases hm : marker <:+: l
    · rw [if_pos hm] at h
      rcases he : lineEntries l with e | ⟨es, data⟩
      · rw [he] at h
        simp at h
      · rw [he] at h
        refine Or.inr ⟨l, es, data, ?_, he, ?_⟩
        · rw [List.filter_cons, if_pos (by simpa using hm)]
          rfl
        · refine scanFrom_row_some rest (k + 1) _ st' data h ?_
          simp [hr]
    · rw [if_neg hm] at h
      rcases scanFrom_row_none rest (k + 1) st st' h hr with ⟨h1, h2⟩ | ⟨f, es, d, h1, h2, h3⟩
      · refine Or.inl ⟨?_, h2⟩
        rw [matchIdxsFrom, if_neg hm]
        exact h1
      · refine Or.inr ⟨f, es, d, ?_, h2, h3⟩
        rw [List.filter_cons, if_neg (by simpa using hm)]
        exact h1

theorem scanFrom_no_match : ∀ (ls : List Line) (k : Nat) (st : ScanSt),
    (∀ l ∈ ls, ¬ marker <:+: l) → scanFrom k ls st = .ok st
  | [], k, st, _ => rfl
  | l :: rest, k, st, h => by
    rw [scanFrom, if_neg (h l (List.mem_cons_self l rest))]
    exact scanFrom_no_match rest (k + 1) st (fun x hx => h x (List.mem_cons_of_mem l hx))

theorem scanFrom_err : ∀ (ls : List Line) (k : Nat) (st : ScanSt),
    (∃ l ∈ ls, marker <:+: l ∧ ∃ e0, lineEntries l = .error e0) →
    ∃ e, scanFrom k ls st = .error e
  | [], k, st, h => by
    rcases h with ⟨l, hl, _⟩
    simp at hl
  | l :: rest, k, st, h => by
    rcases h with ⟨x, hx, hxm, e0, hxe⟩
    rw [scanFrom]
    by_cases hm : marker <:+: l
    · rw [if_pos hm]
      rcases he : lineEntries l with e | ⟨es, data⟩
      · exact ⟨e, rfl⟩
      · rcases List.mem_cons.mp hx with h2 | h2
        · subst h2
          rw [he] at hxe
          simp at hxe
        · exact scanFrom_err rest (k + 1) _ ⟨x, h2, hxm, e0, hxe⟩
    · rw [if_neg hm]
      rcases List.mem_cons.mp hx with h2 | h2
      · subst h2
        exact absurd hxm hm
      · exact scanFrom_err rest (k + 1) st ⟨x, h2, hxm, e0, hxe⟩

/-! ### The collapser as a whole -/

theorem lineEntries_truthy {l : Line} {es : List (List Char)} {d : JVal}
    (h : lineEntries l = .ok (es, d)) : jTruthy d = true := by
  rw [lineEntries] at h
  split at h
  · simp at h
  · split at h
    · simp at h
    · rename_i dOpt dataJ hjl dExc p hget
      simp only [Except.ok.injEq, Prod.mk.injEq] at h
      rcases h with ⟨h1, h2⟩
      subst h2
      cases dataJ with
      | str sd =>
        have hget2 : (match sd[2]? with
            | some c => Except.ok (JVal.str [ c ])
            | none => (Except.error PyErr.indexErr : Except PyErr JVal)) =
            Except.ok (JVal.str p) := hget
        rcases h2c : sd[2]? with _ | c
        · rw [h2c] at hget2
          simp at hget2
        · have hlen : 2 < sd.length := (List.getElem?_eq_some_iff.mp h2c).1
          rcases sd with _ | ⟨c0, sd2⟩
          · simp at hlen
          · rfl
      | arr esd =>
        have hget2 : (match esd[2]? with
            | some v => Except.ok v
            | none => (Except.error PyErr.indexErr : Except PyErr JVal)) =
            Except.ok (JVal.str p) := hget
        rcases h2c : esd[2]? with _ | v2
        · rw [h2c] at hget2
          simp at hget2
        · have hlen : 2 < esd.length := (List.getElem?_eq_some_iff.mp h2c).1
          rcases esd with _ | ⟨e0, esd2⟩
          · simp at hlen
          · rfl
      | num rd => exact Except.noConfusion hget
      | bool bd => exact Except.noConfusion hget
      | null => exact Except.noConfusion hget
      | obj fsd => exact Except.noConfusion hget
    · simp at h

theorem collapse_err {ls : List Line} {e : PyErr}
    (h : scanFrom 0 ls initSt = .error e) : collapse ls = .error e := by
  rw [collapse, h]

theorem collapse_no_match {ls : List Line} (h : matchIdxs ls = []) : collapse ls = .ok ls := by
  have h1 : ∀ l ∈ ls, ¬ marker <:+: l := (matchIdxsFrom_nil ls 0).mp h
  rw [collapse, scanFrom_no_match ls 0 initSt h1]
  rfl

theorem mergeStep_eq {ls : List Line} {pk : List (List Char)} {d : JVal} {i0 : Nat}
    {rest : List Nat} {row2 : JVal}
    (ht : jTruthy d = true)
    (hset : setItem2 d (.str (List.intercalate crlfR (ellipsize pk))) = .ok row2) :
    mergeStep ls ⟨pk, some d, i0 :: rest⟩ = .ok (ls.set i0 (jdumps row2 ++ [ '\n' ])) := by
  have h1 : mergeStep ls ⟨pk, some d, i0 :: rest⟩ =
      if jTruthy d = true then
        match setItem2 d (.str (List.intercalate crlfR (ellipsize pk))) with
        | .error e => .error e
        | .ok row2 => .ok (ls.set i0 (jdumps row2 ++ [ '\n' ]))
      else .ok ls := rfl
  rw [h1, if_pos ht, hset]

theorem collapse_ok_shape {ls : List Line} {i0 : Nat} {rest : List Nat} {out : List Line}
    (hmi : matchIdxs ls = i0 :: rest)
    (hok : collapse ls = .ok out) :
    ∃ m, mergedOf ls = .ok m ∧ out = keepNotIn rest 0 (ls.set i0 m) := by
  rw [collapse] at hok
  rcases hs : scanFrom 0 ls initSt with e | st
  · rw [hs] at hok
    simp at hok
  rw [hs] at hok
  rw [matchIdxs] at hmi
  have hdels : st.dels = i0 :: rest := by
    have h2 := scanFrom_dels ls 0 initSt st hs
    rw [h2, hmi]
    rfl
  rcases scanFrom_row_none ls 0 initSt st hs rfl with ⟨h1, h2⟩ | ⟨f, es, d, h1, h2, h3⟩
  · rw [hmi] at h1
    simp at h1
  · rcases st with ⟨pk, row?, dels⟩
    simp only at hdels h3
    subst hdels
    subst h3
    have ht := lineEntries_truthy h2
    rcases hset : setItem2 d (.str (List.intercalate crlfR (ellipsize pk))) with e | row2
    · have hms : mergeStep ls ⟨pk, some d, i0 :: rest⟩ = .error e := by
        have h4 : mergeStep ls ⟨pk, some d, i0 :: rest⟩ =
            if jTruthy d = true then
              match setItem2 d (.str (List.intercalate crlfR (ellipsize pk))) with
              | .error e => (.error e : Except PyErr (List Line))
              | .ok row2 => .ok (ls.set i0 (jdumps row2 ++ [ '\n' ]))
            else .ok ls := rfl
        rw [h4, if_pos ht, hset]
      have hok2 : (match mergeStep ls ⟨pk, some d, i0 :: rest⟩ with
          | Except.error e => (Except.error e : Except PyErr (List Line))
          | Except.ok ls2 =>
            Except.ok (List.foldl (fun acc j => acc.eraseIdx j) ls2
              (((i0 :: rest : List Nat).drop 1).reverse))) = Except.ok out := hok
      rw [hms] at hok2
      simp at hok2
    · have hms := @mergeStep_eq ls pk d i0 rest _ ht hset
      have hok2 : (match mergeStep ls ⟨pk, some d, i0 :: rest⟩ with
          | Except.error e => (Except.error e : Except PyErr (List Line))
          | Except.ok ls2 =>
            Except.ok (List.foldl (fun acc j => acc.eraseIdx j) ls2
              (((i0 :: rest : List Nat).drop 1).reverse))) = Except.ok out := hok
      rw [hms] at hok2
      have hok3 : Except.ok (List.foldl (fun acc j => acc.eraseIdx j)
          (ls.set i0 (jdumps row2 ++ [ '\n' ])) rest.reverse) = Except.ok out := hok2
      simp only [Except.ok.injEq] at hok3
      refine ⟨jdumps row2 ++ [ '\n' ], ?_, ?_⟩
      · have h5 : mergedOf ls =
            match setItem2 d (.str (List.intercalate crlfR (ellipsize pk))) with
            | .error e => (.error e : Except PyErr Line)
            | .ok row2 => .ok (jdumps row2 ++ [ '\n' ]) := by
          rw [mergedOf, hs]
        rw [h5, hset]
      · rw [← hok3]
        refine delRev_eq_keepNotIn rest (ls.set i0 (jdumps row2 ++ [ '\n' ])) ?_ ?_
        · have hp := matchIdxsFrom_sorted ls 0
          rw [hmi] at hp
          exact (List.pairwise_cons.mp hp).2
        · intro j hj
          have hb := matchIdxsFrom_bounds ls 0 j (by rw [hmi]; exact List.mem_cons_of_mem i0 hj)
          simp only [List.length_set]
          omega

/-! ### The claims -/

/-- C1 (counterexample): a one-line recording does not fail: the final
trim is a Python slice, which clamps, so the program succeeds and emits
only the trailing newline of `print`. -/
theorem claim_C1_cex : fixRun [ strOf "hello\n" ] = .ok [ '\n' ] := by rfl

/-- C1 (amended): for every input whose post-transformation sequence has
fewer than 2 lines, the final trim yields the empty sequence and the
program terminates successfully, emitting only `print`'s newline — there
is no out-of-range failure. -/
theorem claim_C1 (ls : List Line) (out : List Line)
    (h : collapse (recolor ls) = .ok out) (hlen : out.length < 2) :
    fixRun ls = .ok [ '\n' ] := by
  have h3 : fixRun ls = .ok (emitTrim out) := by
    rw [fixRun, h]
  rw [h3, emitTrim, show out.length - 2 = 0 from by omega, List.take_zero]
  rfl

theorem claim_C1_witness : fixRun [] = .ok [ '\n' ] :=
  claim_C1 [] [] (by rfl) (by decide)

/-- C4 (counterexample): the escape sequences the pass inserts contain
neither `$ ` nor the escaped `\r\n` — the claim's own side condition
holds — yet the recoloring pass is not idempotent: a second application
appends a second reset after an annotated `\r\n`. -/
theorem claim_C4_cex :
    (¬ dollarSp <:+: dimRep ∧ ¬ rnEsc <:+: dimRep ∧
     ¬ dollarSp <:+: esc0mEsc ∧ ¬ rnEsc <:+: esc0mEsc ∧
     ¬ dollarSp <:+: blueRep ∧ ¬ rnEsc <:+: blueRep) ∧
    recolor (recolor [ strOf "[\"o\",\"\",\"hi\\r\\n\"]\n" ]) ≠
      recolor [ strOf "[\"o\",\"\",\"hi\\r\\n\"]\n" ] := by
  constructor
  · decide
  · decide

/-- C4 (amended): the recoloring pass is idempotent on every recording
none of whose lines contains the escaped `\r\n`.  (In general it is not:
step 2 rewrites `\r\n` to `\r\n\u001b[0m`, which still contains `\r\n`,
so a second application appends a duplicate reset after each one.) -/
theorem claim_C4 (ls : List Line) (h : ∀ l ∈ ls, ¬ rnEsc <:+: l) :
    recolor (recolor ls) = recolor ls :=
  recolor_fixed (recolor_clean h)

theorem claim_C4_witness :
    recolor (recolor [ strOf "[\"o\",\"\",\"$ \"]\n", strOf "[\"o\",\"\",\"ok\"]\n" ]) =
      recolor [ strOf "[\"o\",\"\",\"$ \"]\n", strOf "[\"o\",\"\",\"ok\"]\n" ] :=
  claim_C4 [ strOf "[\"o\",\"\",\"$ \"]\n", strOf "[\"o\",\"\",\"ok\"]\n" ] (by decide)

/-- C5: in the first loop, a line containing `$ "]` that has a successor
gets the two independent successor-dependent rewrites (remove `$ ` if the
successor contains `"\r\n"]`; then, on that result, replace `$ ` with the
dim escape if the successor contains `"#"`) followed by the unconditional
annotation; a line with no successor gets neither prompt rewrite, only
the annotation. -/
theorem claim_C5 :
    (∀ (ls : List Line) (i : Nat) (cur nxt : Line),
      ls[i]? = some cur → ls[i + 1]? = some nxt → promptMark <:+: cur →
      (pass12 ls)[i]? = some (replChars rnEsc resetRep (dimStep (rmStep cur nxt) nxt))) ∧
    (∀ (ls : List Line) (i : Nat) (cur : Line),
      ls[i]? = some cur → ls[i + 1]? = none →
      (pass12 ls)[i]? = some (replChars rnEsc resetRep cur)) := by
  constructor
  · intro ls i cur nxt hc hn hp
    rw [pass12_getElem?, hc, hn]
    simp only [Option.map_some']
    congr 1
    show replChars rnEsc resetRep (if promptMark <:+: cur then promptFix cur nxt else cur) = _
    rw [if_pos hp]
    rfl
  · intro ls i cur hc hn
    rw [pass12_getElem?, hc, hn]
    simp only [Option.map_some']
    congr 1
    show replChars rnEsc resetRep (if promptMark <:+: cur then cur else cur) = _
    congr 1
    split <;> rfl

theorem claim_C5_witness :
    (pass12 [ strOf "[\"o\",\"\",\"$ \"]\n", strOf "[\"o\",\"\",\"#\"]\n" ])[0]? =
      some (replChars rnEsc resetRep
        (dimStep (rmStep (strOf "[\"o\",\"\",\"$ \"]\n") (strOf "[\"o\",\"\",\"#\"]\n"))
          (strOf "[\"o\",\"\",\"#\"]\n"))) :=
  claim_C5.1 [ strOf "[\"o\",\"\",\"$ \"]\n", strOf "[\"o\",\"\",\"#\"]\n" ] 0
    (strOf "[\"o\",\"\",\"$ \"]\n") (strOf "[\"o\",\"\",\"#\"]\n") (by rfl) (by rfl) (by decide)

/-- C6 (counterexample): a line rewritten by step 1's removal rule can
still contain `$ ` afterwards — removing `$ ` can splice the surrounding
characters into a fresh `$ ` — and such a line IS then changed by the
blanket step-3 recoloring, contradicting the claim that step-1-rewritten
lines no longer contain `$ ` and are left unchanged by step 3. -/
theorem claim_C6_cex :
    (pass12 [ strOf "$$  $ \"]\n", strOf "x\"\\r\\n\"]x\n" ])[0]? = some (strOf "$ \"]\n") ∧
    strOf "$ \"]\n" ≠ strOf "$$  $ \"]\n" ∧
    dollarSp <:+: strOf "$ \"]\n" ∧
    replChars dollarSp blueRep (strOf "$ \"]\n") ≠ strOf "$ \"]\n" := by
  refine ⟨by rfl, by decide, by decide, by decide⟩

/-- C6 (amended): the blanket recoloring runs as a second full scan over
the already fully rewritten lines; it replaces every remaining `$ `
(its output never contains `$ `), and a line that contains no `$ ` after
steps 1–2 — which is not guaranteed for every step-1-rewritten line —
passes through step 3 unchanged. -/
theorem claim_C6 :
    (∀ ls : List Line, recolor ls = (pass12 ls).map (replChars dollarSp blueRep)) ∧
    (∀ l : Line, ¬ dollarSp <:+: l → replChars dollarSp blueRep l = l) ∧
    (∀ l : Line, ¬ dollarSp <:+: replChars dollarSp blueRep l) := by
  refine ⟨fun ls => rfl, fun l h => replChars_of_not_ifx h, fun l => no_ds_after_pass3 l⟩

theorem claim_C6_witness :
    replChars dollarSp blueRep (strOf "[\"o\",\"\",\"done\"]\n") = strOf "[\"o\",\"\",\"done\"]\n" :=
  claim_C6.2.1 (strOf "[\"o\",\"\",\"done\"]\n") (by decide)

/-- C7: the annotator never loses an occurrence of the escaped `\r\n`
present in the raw line (whether or not the prompt rewrites of step 1
fired on it), and in its output every occurrence of `\r\n` is immediately
followed by the escaped reset `\u001b[0m`. -/
theorem claim_C7 (ls : List Line) (i : Nat) (raw out : Line)
    (hraw : ls[i]? = some raw) (hout : (pass12 ls)[i]? = some out) :
    occCount rnEsc raw ≤ occCount rnEsc out ∧
    ∀ a b : List Char, out = a ++ (rnEsc ++ b) → esc0mEsc <+: b := by
  rw [pass12_getElem?, hraw] at hout
  simp only [Option.map_some', Option.some_inj] at hout
  subst hout
  constructor
  · show occCount rnEsc raw ≤ occCount rnEsc (replChars rnEsc resetRep _)
    have hstep : ∀ m : Line, occCount rnEsc raw ≤ occCount rnEsc m →
        occCount rnEsc raw ≤ occCount rnEsc (replChars rnEsc resetRep m) :=
      fun m hm => Nat.le_trans hm (occCount_rn_annotate m)
    by_cases hp : promptMark <:+: raw
    · rw [if_pos hp]
      cases hnx : ls[i + 1]? with
      | none => exact hstep raw (Nat.le_refl _)
      | some nxt =>
        refine hstep _ ?_
        show occCount rnEsc raw ≤ occCount rnEsc (promptFix raw nxt)
        have hdisj : ∀ x ∈ rnEsc, x ∉ dollarSp := by decide
        have hrm : occCount rnEsc raw ≤
            occCount rnEsc (if rnJson <:+: nxt then replChars dollarSp [] raw else raw) := by
          split
          · exact occCount_le_replChars (by decide) hdisj raw
          · exact Nat.le_refl _
        show occCount rnEsc raw ≤ occCount rnEsc
          (if hashQ <:+: nxt then replChars dollarSp dimRep
            (if rnJson <:+: nxt then replChars dollarSp [] raw else raw)
          else (if rnJson <:+: nxt then replChars dollarSp [] raw else raw))
        split
        · exact Nat.le_trans hrm (occCount_le_replChars (by decide) hdisj _)
        · exact hrm
    · rw [if_neg hp]
      exact hstep raw (Nat.le_refl _)
  · intro a b hab
    exact annotate_followed _ a b hab

theorem claim_C7_witness :
    occCount rnEsc (strOf "[\"o\",\"\",\"hi\\r\\n\"]\n") ≤
      occCount rnEsc (fix1 (strOf "[\"o\",\"\",\"hi\\r\\n\"]\n") none) ∧
    ∀ a b : List Char, fix1 (strOf "[\"o\",\"\",\"hi\\r\\n\"]\n") none = a ++ (rnEsc ++ b) →
      esc0mEsc <+: b :=
  claim_C7 [ strOf "[\"o\",\"\",\"hi\\r\\n\"]\n" ] 0 (strOf "[\"o\",\"\",\"hi\\r\\n\"]\n")
    (fix1 (strOf "[\"o\",\"\",\"hi\\r\\n\"]\n") none) (by rfl) (by rfl)

/-- C8: a line carrying the package-addition marker that is not valid
JSON, or whose decoded array has fewer than 3 elements, makes the
collapser's scan raise a fatal error, and a collapse error always
propagates out of the whole run — there is no recovery path. -/
theorem claim_C8 :
    (∀ (ls : List Line) (i : Nat) (l : Line), ls[i]? = some l → marker <:+: l →
      (jloads l = none ∨ ∃ es, jloads l = some (.arr es) ∧ es.length < 3) →
      ∃ e, collapse ls = .error e) ∧
    (∀ ls : List Line, (∃ e, collapse (recolor ls) = .error e) →
      ∃ e, fixRun ls = .error e) := by
  constructor
  · intro ls i l hl hm hbad
    have hle : ∃ e0, lineEntries l = .error e0 := by
      rcases hbad with hj | ⟨es, hj, hlen⟩
      · exact ⟨.jsonErr, by rw [lineEntries, hj]⟩
      · refine ⟨.indexErr, ?_⟩
        have h2 : es[2]? = none := List.getElem?_eq_none (by omega)
        have h3 : getItem2 (.arr es) = .error .indexErr := by
          rw [getItem2, h2]
        rw [lineEntries, hj]
        show (match getItem2 (JVal.arr es) with
          | Except.error e => (Except.error e : Except PyErr (List (List Char) × JVal))
          | Except.ok (JVal.str p) => Except.ok (splitSep crlfR p, JVal.arr es)
          | Except.ok a => Except.error PyErr.attrErr) = Except.error PyErr.indexErr
        rw [h3]
    rcases scanFrom_err ls 0 initSt ⟨l, List.getElem?_mem hl, hm, hle⟩ with ⟨e, he⟩
    exact ⟨e, collapse_err he⟩
  · intro ls h
    rcases h with ⟨e, he⟩
    exact ⟨e, by rw [fixRun, he]⟩

theorem claim_C8_witness :
    ∃ e, collapse [ strOf "xx go: added github.com/a\n" ] = .error e :=
  claim_C8.1 [ strOf "xx go: added github.com/a\n" ] 0 (strOf "xx go: added github.com/a\n")
    (by rfl) (by decide) (Or.inl (by rfl))

/-- C2: on a successful scan, the accumulated package-entry list is the
concatenation, in encounter order, of the CR-LF splits of the matching
lines' payloads — so its length is the sum of the split sizes — and the
unconditional head-3 / `"..."` / tail-3 truncation yields exactly 7
entries whenever the accumulated list has at least 6. -/
theorem claim_C2 (ls : List Line) (st : ScanSt)
    (h : scanFrom 0 ls initSt = .ok st) :
    (∃ ess, (ls.filter (fun l => decide (marker <:+: l))).mapM entriesOfLine = Except.ok ess ∧
      st.packages = ess.flatten ∧ st.packages.length = (ess.map List.length).sum) ∧
    (6 ≤ st.packages.length → (ellipsize st.packages).length = 7) := by
  constructor
  · rcases scanFrom_packages ls 0 initSt st h with ⟨ess, hm, hp⟩
    have hp2 : st.packages = ess.flatten := by simpa using hp
    exact ⟨ess, hm, hp2, by rw [hp2, List.length_flatten]⟩
  · intro h6
    rw [ellipsize]
    simp only [List.length_append, List.length_take, List.length_drop, List.length_cons,
      List.length_nil]
    omega

theorem claim_C2_witness :
    (∃ ess, (([ strOf "[\"o\", 1, \"go: added github.com/a\\r\\nb\\r\\nc\\r\\nd\\r\\ne\\r\\nf\"]\n" ] :
        List Line).filter (fun l => decide (marker <:+: l))).mapM entriesOfLine = Except.ok ess ∧
      (⟨[ strOf "go: added github.com/a", strOf "b", strOf "c", strOf "d", strOf "e", strOf "f" ],
        some (.arr [ .str [ 'o' ], .num [ '1' ],
          .str (strOf "go: added github.com/a\r\nb\r\nc\r\nd\r\ne\r\nf") ]),
        [ 0 ]⟩ : ScanSt).packages = ess.flatten ∧
      (⟨[ strOf "go: added github.com/a", strOf "b", strOf "c", strOf "d", strOf "e", strOf "f" ],
        some (.arr [ .str [ 'o' ], .num [ '1' ],
          .str (strOf "go: added github.com/a\r\nb\r\nc\r\nd\r\ne\r\nf") ]),
        [ 0 ]⟩ : ScanSt).packages.length = (ess.map List.length).sum) ∧
    (6 ≤ (⟨[ strOf "go: added github.com/a", strOf "b", strOf "c", strOf "d", strOf "e",
        strOf "f" ],
        some (.arr [ .str [ 'o' ], .num [ '1' ],
          .str (strOf "go: added github.com/a\r\nb\r\nc\r\nd\r\ne\r\nf") ]),
        [ 0 ]⟩ : ScanSt).packages.length →
      (ellipsize (⟨[ strOf "go: added github.com/a", strOf "b", strOf "c", strOf "d", strOf "e",
        strOf "f" ],
        some (.arr [ .str [ 'o' ], .num [ '1' ],
          .str (strOf "go: added github.com/a\r\nb\r\nc\r\nd\r\ne\r\nf") ]),
        [ 0 ]⟩ : ScanSt).packages).length = 7) :=
  claim_C2 [ strOf "[\"o\", 1, \"go: added github.com/a\\r\\nb\\r\\nc\\r\\nd\\r\\ne\\r\\nf\"]\n" ]
    ⟨[ strOf "go: added github.com/a", strOf "b", strOf "c", strOf "d", strOf "e", strOf "f" ],
      some (.arr [ .str [ 'o' ], .num [ '1' ],
        .str (strOf "go: added github.com/a\r\nb\r\nc\r\nd\r\ne\r\nf") ]),
      [ 0 ]⟩ (by rfl)

/-- C3 (counterexample): the emitted output need not contain a line
derived from the first package-addition match: if the first match sits in
the final two (trimmed) positions, the merged record is cut away.  Here
the input has a package-addition line, yet the emitted text contains no
trace of the marker. -/
theorem claim_C3_cex :
    marker <:+: strOf "[\"o\", 1, \"go: added github.com/a\"]\n" ∧
    fixRun [ strOf "x\n", strOf "y\n", strOf "[\"o\", 1, \"go: added github.com/a\"]\n" ] =
      .ok (strOf "x\n\n") ∧
    ¬ marker <:+: strOf "x\n\n" := by
  refine ⟨by decide, by rfl, by decide⟩

/-- C3 (amended): in the post-collapse line sequence, exactly one line is
derived from the first package-addition match — the merged, truncated,
re-encoded record with a trailing newline, sitting at the first match's
index — and every other line is one of the original non-matching lines;
no line derives from a subsequent match (they are all deleted).  The
emitted output therefore carries at most one merged record: the one at
the first match's index, unless that index falls in the final two trimmed
positions. -/
theorem claim_C3 (ls : List Line) (i0 : Nat) (rest : List Nat) (out : List Line)
    (hmi : matchIdxs ls = i0 :: rest) (hok : collapse ls = .ok out) :
    (∃ m, mergedOf ls = .ok m ∧ out[i0]? = some m) ∧
    (∀ (p : Nat) (q : Line), out[p]? = some q → p ≠ i0 →
      ∃ j, j ∉ matchIdxs ls ∧ ls[j]? = some q ∧ ¬ marker <:+: q) := by
  rcases collapse_ok_shape hmi hok with ⟨m, hmer, hshape⟩
  have hi0mem : i0 ∈ matchIdxsFrom 0 ls := by
    rw [show matchIdxsFrom 0 ls = i0 :: rest from hmi]
    exact List.mem_cons_self _ _
  have hi0lt : i0 < ls.length := by
    have h2 := matchIdxsFrom_bounds ls 0 i0 hi0mem
    omega
  have hp2 : List.Pairwise (· < ·) (i0 :: rest) := by
    rw [← hmi]
    exact matchIdxsFrom_sorted ls 0
  have hrestgt : ∀ j ∈ rest, i0 + 1 ≤ j :=
    fun j hj => Nat.succ_le_of_lt ((List.pairwise_cons.mp hp2).1 j hj)
  have hlsetlen : (ls.set i0 m).length = ls.length := by simp
  have hsplit : keepNotIn rest 0 (ls.set i0 m) =
      (ls.set i0 m).take (i0 + 1) ++ keepNotIn rest (i0 + 1) ((ls.set i0 m).drop (i0 + 1)) := by
    have h3 := keepNotIn_eq_append rest (i0 + 1) 0 (ls.set i0 m) (by omega)
      (fun j hj => by have := hrestgt j hj; omega)
    simpa using h3
  have htklen : ((ls.set i0 m).take (i0 + 1)).length = i0 + 1 := by
    simp only [List.length_take, hlsetlen]
    omega
  constructor
  · refine ⟨m, hmer, ?_⟩
    rw [hshape, hsplit, List.getElem?_append_left (by rw [htklen]; omega),
      List.getElem?_take_of_succ, List.getElem?_set_self hi0lt]
  · intro p q hq hpne
    rw [hshape, hsplit] at hq
    by_cases hple : p ≤ i0
    · have hplt : p < i0 := Nat.lt_of_le_of_ne hple hpne
      rw [List.getElem?_append_left (by rw [htklen]; omega),
        List.getElem?_take_of_lt (by omega), List.getElem?_set_ne (by omega)] at hq
      refine ⟨p, ?_, hq, ?_⟩
      · rw [hmi]
        simp only [List.mem_cons]
        rintro (h2 | h2)
        · exact hpne h2
        · have := hrestgt p h2
          omega
      · intro hmk
        have h5 := (matchIdxsFrom_spec ls 0 p q hq).mpr hmk
        rw [Nat.zero_add] at h5
        rw [show matchIdxsFrom 0 ls = i0 :: rest from hmi] at h5
        rcases List.mem_cons.mp h5 with h6 | h6
        · exact hpne h6
        · have := hrestgt p h6
          omega
    · have hpgt : i0 < p := Nat.lt_of_not_le hple
      rw [List.getElem?_append_right (by rw [htklen]; omega), htklen] at hq
      rcases keepNotIn_src _ rest (i0 + 1) _ q hq with ⟨j2, hj2ge, hj2nin, hj2⟩
      rw [List.getElem?_drop] at hj2
      rw [List.getElem?_set_ne (by omega)] at hj2
      refine ⟨i0 + 1 + j2, ?_, hj2, ?_⟩
      · rw [hmi]
        simp only [List.mem_cons]
        rintro (h2 | h2)
        · omega
        · exact hj2nin h2
      · intro hmk
        have h5 := (matchIdxsFrom_spec ls 0 (i0 + 1 + j2) q hj2).mpr hmk
        rw [Nat.zero_add] at h5
        rw [show matchIdxsFrom 0 ls = i0 :: rest from hmi] at h5
        rcases List.mem_cons.mp h5 with h6 | h6
        · exact absurd h6 (by omega)
        · exact hj2nin h6

/-- C3 witness: a three-line recording whose first line is the sole
package-addition match; the merged record replaces it in place and the
other two lines are original non-matching lines. -/
theorem claim_C3_witness :
    (∃ m, mergedOf [ strOf "[\"o\", 1, \"go: added github.com/a\"]\n",
        strOf "x\n", strOf "y\n" ] = .ok m ∧
      ([ strOf "[\"o\", 1, \"go: added github.com/a\\r\\n...\\r\\ngo: added github.com/a\"]\n",
          strOf "x\n", strOf "y\n" ] : List Line)[0]? = some m) ∧
    (∀ (p : Nat) (q : Line),
      ([ strOf "[\"o\", 1, \"go: added github.com/a\\r\\n...\\r\\ngo: added github.com/a\"]\n",
          strOf "x\n", strOf "y\n" ] : List Line)[p]? = some q → p ≠ 0 →
      ∃ j, j ∉ matchIdxs [ strOf "[\"o\", 1, \"go: added github.com/a\"]\n",
          strOf "x\n", strOf "y\n" ] ∧
        [ strOf "[\"o\", 1, \"go: added github.com/a\"]\n",
          strOf "x\n", strOf "y\n" ][j]? = some q ∧ ¬ marker <:+: q) :=
  claim_C3 _ 0 [] _ (by rfl) (by rfl)

/-- C9: a frame property — a line containing none of the trigger
substrings (`$ \"]`, the escaped `\r\n`, the package-addition marker,
and no `$ ` at all) passes through the recoloring passes and the
collapser with its text byte-identical to the input. -/
theorem claim_C9 (ls : List Line) (i : Nat) (raw : Line) (out : List Line)
    (hi : ls[i]? = some raw)
    (h2 : ¬ rnEsc <:+: raw)
    (h3 : ¬ marker <:+: raw)
    (h4 : ¬ dollarSp <:+: raw)
    (hok : collapse (recolor ls) = .ok out) :
    ∃ p : Nat, out[p]? = some raw := by
  have hrec : (recolor ls)[i]? = some raw := by
    rw [recolor_getElem?, hi]
    simp only [Option.map_some']
    rw [fix1_id ls[i + 1]? h4 h2, replChars_of_not_ifx h4]
  have hnin : i ∉ matchIdxs (recolor ls) := by
    intro hmem
    have h5 := (matchIdxsFrom_spec (recolor ls) 0 i raw hrec).mp (by rwa [Nat.zero_add])
    exact h3 h5
  rcases hmi : matchIdxs (recolor ls) with _ | ⟨i0, rest⟩
  · have h6 := collapse_no_match hmi
    rw [h6] at hok
    rcases hok with ⟨⟩
    exact ⟨i, hrec⟩
  · rcases collapse_ok_shape hmi hok with ⟨m, hmer, hshape⟩
    rw [hmi] at hnin
    simp only [List.mem_cons, not_or] at hnin
    have hset : ((recolor ls).set i0 m)[i]? = some raw := by
      rw [List.getElem?_set_ne (fun h => hnin.1 h.symm)]
      exact hrec
    rcases keepNotIn_fwd _ rest 0 i raw (by rw [Nat.zero_add]; exact hnin.2) hset with ⟨p, hp⟩
    exact ⟨p, by rw [hshape]; exact hp⟩

/-- C9 witness: the first line of a trigger-free three-line recording
survives the whole pipeline verbatim. -/
theorem claim_C9_witness :
    ∃ p : Nat,
      ([ strOf "hello\n", strOf "a\n", strOf "b\n" ] : List Line)[p]? =
        some (strOf "hello\n") :=
  claim_C9 [ strOf "hello\n", strOf "a\n", strOf "b\n" ] 0 (strOf "hello\n")
    [ strOf "hello\n", strOf "a\n", strOf "b\n" ]
    (by rfl) (by decide) (by decide) (by decide) (by rfl)

/-! ### Character classes and escape facts for the round-trip -/

theorem ne_of_toNat {c d : Char} (h : c.toNat ≠ d.toNat) : c ≠ d :=
  fun he => h (congrArg Char.toNat he)

theorem plainCh_facts {c : Char} (h : plainCh c = true) :
    0x20 ≤ c.toNat ∧ c.toNat ≤ 0x7e ∧ c ≠ '"' ∧ c ≠ '\\' ∧ c ≠ '$' := by
  simp only [plainCh, Bool.and_eq_true, bne_iff_ne, ne_eq, decide_eq_true_eq] at h
  exact ⟨h.1.1.1.1, h.1.1.1.2, h.1.1.2, h.1.2, h.2⟩

theorem escChar_plain {c : Char} (h : plainCh c = true) : escChar c = [ c ] := by
  obtain ⟨h1, h2, h3, h4, _⟩ := plainCh_facts h
  rw [escChar, if_neg h3, if_neg h4,
    if_neg (ne_of_toNat (by simp; omega)),
    if_neg (ne_of_toNat (by simp; omega)),
    if_neg (ne_of_toNat (by simp; omega)),
    if_neg (by omega), if_neg (by omega), if_pos ⟨h1, h2⟩]

theorem escChar_cr : escChar '\r' = [ '\\', 'r' ] := by decide

theorem escChar_lf : escChar '\n' = [ '\\', 'n' ] := by decide

theorem escChar_u1b : escChar '\x1b' = [ '\\', 'u', '0', '0', '1', 'b' ] := by decide

theorem jescape_nil : jescape [] = [] := rfl

theorem jescape_cons (c : Char) (s : List Char) :
    jescape (c :: s) = escChar c ++ jescape s := by
  simp [jescape]

theorem jescape_append (a b : List Char) : jescape (a ++ b) = jescape a ++ jescape b := by
  simp [jescape]

theorem jescape_plain : ∀ {s : List Char}, (∀ c ∈ s, plainCh c = true) → jescape s = s
  | [], _ => rfl
  | c :: rest, h => by
    rw [jescape_cons, escChar_plain (h c (List.mem_cons_self c rest)),
      jescape_plain (fun x hx => h x (List.mem_cons_of_mem c hx))]
    rfl

/-! ### The string reader inverts `jescape` on the payload alphabet -/

theorem pStrF_quote (f : Nat) (r : List Char) : pStrF (f + 1) ('"' :: r) = some ([], r) := by
  rw [pStrF]

theorem pStrF_plain (f : Nat) (c : Char) (tail : List Char)
    (h1 : c ≠ '"') (h2 : c ≠ '\\') (h3 : 0x20 ≤ c.toNat) :
    pStrF (f + 1) (c :: tail) = (pStrF f tail).map (fun p => (c :: p.1, p.2)) := by
  rw [pStrF]
  · rw [if_neg (by omega)]
  · exact fun h => h1 h
  · exact fun a b c1 d r1 hc _ => h2 hc
  · exact fun e r1 hc _ => h2 hc

theorem pStrF_esc_r (f : Nat) (tail : List Char) :
    pStrF (f + 1) ('\\' :: 'r' :: tail) = (pStrF f tail).map (fun p => ('\r' :: p.1, p.2)) := by
  rw [pStrF]
  · rfl
  · exact fun a b c d r1 h _ => absurd h (by decide)

theorem pStrF_esc_n (f : Nat) (tail : List Char) :
    pStrF (f + 1) ('\\' :: 'n' :: tail) = (pStrF f tail).map (fun p => ('\n' :: p.1, p.2)) := by
  rw [pStrF]
  · rfl
  · exact fun a b c d r1 h _ => absurd h (by decide)

theorem pStrF_esc_u1b (f : Nat) (tail : List Char) :
    pStrF (f + 1) ('\\' :: 'u' :: '0' :: '0' :: '1' :: 'b' :: tail) =
      (pStrF f tail).map (fun p => ('\x1b' :: p.1, p.2)) := by
  rw [pStrF]
  simp only [show hexVal '0' = some 0 by decide, show hexVal '1' = some 1 by decide,
    show hexVal 'b' = some 11 by decide]
  rw [if_neg (by omega)]

theorem jescape_cons_length (c : Char) (s : List Char) :
    (jescape (c :: s)).length = (escChar c).length + (jescape s).length := by
  rw [jescape_cons, List.length_append]

theorem pStrF_rt : ∀ (f : Nat) (q r : List Char), (∀ c ∈ q, annCh c = true) →
    (jescape q).length < f →
    pStrF f (jescape q ++ '"' :: r) = some (q, r) := by
  intro f
  induction f with
  | zero => intro q r _ hl; omega
  | succ f ih =>
    intro q r hq hl
    cases q with
    | nil => exact pStrF_quote f r
    | cons c rest =>
      have hc := hq c (List.mem_cons_self c rest)
      have hrest : ∀ x ∈ rest, annCh x = true := fun x hx => hq x (List.mem_cons_of_mem c hx)
      rw [jescape_cons_length] at hl
      rw [jescape_cons, List.append_assoc]
      simp only [annCh, payloadCh, Bool.or_eq_true, decide_eq_true_eq] at hc
      rcases hc with ((hpl | hcr) | hlf) | hesc
      · obtain ⟨hb1, _, hne1, hne2, _⟩ := plainCh_facts hpl
        rw [escChar_plain hpl] at hl ⊢
        simp only [List.length_cons, List.length_nil] at hl
        rw [List.singleton_append, pStrF_plain f c _ hne1 hne2 hb1,
          ih rest r hrest (by omega)]
        rfl
      · subst hcr
        rw [escChar_cr] at hl ⊢
        simp only [List.length_cons, List.length_nil] at hl
        rw [show ([ '\\', 'r' ] : List Char) ++ (jescape rest ++ '"' :: r) =
          '\\' :: 'r' :: (jescape rest ++ '"' :: r) from rfl]
        rw [pStrF_esc_r f _, ih rest r hrest (by omega)]
        rfl
      · subst hlf
        rw [escChar_lf] at hl ⊢
        simp only [List.length_cons, List.length_nil] at hl
        rw [show ([ '\\', 'n' ] : List Char) ++ (jescape rest ++ '"' :: r) =
          '\\' :: 'n' :: (jescape rest ++ '"' :: r) from rfl]
        rw [pStrF_esc_n f _, ih rest r hrest (by omega)]
        rfl
      · subst hesc
        rw [escChar_u1b] at hl ⊢
        simp only [List.length_cons, List.length_nil] at hl
        rw [show ([ '\\', 'u', '0', '0', '1', 'b' ] : List Char) ++ (jescape rest ++ '"' :: r) =
          '\\' :: 'u' :: '0' :: '0' :: '1' :: 'b' :: (jescape rest ++ '"' :: r) from rfl]
        rw [pStrF_esc_u1b f _, ih rest r hrest (by omega)]
        rfl

theorem pStr_rt (q r : List Char) (hq : ∀ c ∈ q, annCh c = true) :
    pStr (jescape q ++ '"' :: r) = some (q, r) := by
  rw [pStr]
  refine pStrF_rt _ q r hq ?_
  simp only [List.length_append, List.length_cons]
  omega

/-! ### Symbolic runs of the value parser -/

theorem skipWs_no {c : Char} (r : List Char) (h : isWsChar c = false) :
    skipWs (c :: r) = c :: r := by
  rw [skipWs, if_neg]
  simp [h]

theorem skipWs_yes {c : Char} (r : List Char) (h : isWsChar c = true) :
    skipWs (c :: r) = skipWs r := by
  rw [skipWs, if_pos]
  simp [h]

theorem isWsChar_of_range {c : Char} (h1 : 0x20 < c.toNat ∨ c.toNat < 9 ∨ (10 < c.toNat ∧ c.toNat < 13)) :
    isWsChar c = false := by
  simp only [isWsChar, Bool.or_eq_false_iff, decide_eq_false_iff_not]
  refine ⟨⟨⟨?_, ?_⟩, ?_⟩, ?_⟩ <;> exact ne_of_toNat (by simp; omega)

theorem stripLit_head_ne {lit s : List Char} {a c : Char} {lt st : List Char}
    (hl : lit = a :: lt) (hs : s = c :: st) (hne : a.toNat ≠ c.toNat) :
    stripLit lit s = none := by
  subst hl
  subst hs
  rw [stripLit, if_neg]
  intro hb
  exact hne (congrArg Char.toNat (List.cons_prefix_cons.mp (isPrefixOf_iff_pfx.mp hb)).1)

theorem pVal_str (f : Nat) (q r s : List Char) (hq : ∀ c ∈ q, annCh c = true)
    (hs : skipWs s = '"' :: (jescape q ++ '"' :: r)) :
    pVal (f + 1) s = some (.str q, r) := by
  rw [pVal, hs]
  split
  · rename_i h
    exact absurd h (by simp)
  · rename_i c r2 h
    rcases List.cons.injEq .. ▸ h with ⟨hc, hr⟩
    subst hc
    subst hr
    rw [if_pos rfl, pStr_rt q r hq]
    rfl

theorem pVal_num (f : Nat) (t rest : List Char) (c0 : Char) (t2 : List Char)
    (hts : t = c0 :: t2) (hc : 48 ≤ c0.toNat ∧ c0.toNat ≤ 57)
    (ht : pNum (t ++ ',' :: rest) = some (t, ',' :: rest)) :
    pVal (f + 1) (t ++ ',' :: rest) = some (.num t, ',' :: rest) := by
  subst hts
  rw [pVal, List.cons_append, skipWs_no _ (isWsChar_of_range (by omega))]
  split
  · rename_i h
    exact absurd h (by simp)
  rename_i c r2 h
  rcases List.cons.injEq .. ▸ h with ⟨hc, hr⟩
  subst hc
  subst hr
  rw [if_neg (ne_of_toNat (by simp; omega)), if_neg (ne_of_toNat (by simp; omega)),
    if_neg (ne_of_toNat (by simp; omega))]
  rw [show strOf "true" = 't' :: [ 'r', 'u', 'e' ] from rfl,
    show strOf "false" = 'f' :: [ 'a', 'l', 's', 'e' ] from rfl,
    show strOf "null" = 'n' :: [ 'u', 'l', 'l' ] from rfl,
    show strOf "NaN" = 'N' :: [ 'a', 'N' ] from rfl,
    show strOf "Infinity" = 'I' :: [ 'n', 'f', 'i', 'n', 'i', 't', 'y' ] from rfl,
    show strOf "-Infinity" = '-' :: ('I' :: [ 'n', 'f', 'i', 'n', 'i', 't', 'y' ]) from rfl]
  rw [stripLit_head_ne rfl rfl (by simp; omega), stripLit_head_ne rfl rfl (by simp; omega),
    stripLit_head_ne rfl rfl (by simp; omega), stripLit_head_ne rfl rfl (by simp; omega),
    stripLit_head_ne rfl rfl (by simp; omega), stripLit_head_ne rfl rfl (by simp; omega)]
  rw [← List.cons_append, ht]
  rfl

theorem pVal_arrTop (f : Nat) (s r : List Char) (hs : skipWs s = '[' :: r) :
    pVal (f + 1) s = pArrTop f r := by
  rw [pVal, hs]
  split
  · rename_i h
    exact absurd h (by simp)
  · rename_i c r2 h
    rcases List.cons.injEq .. ▸ h with ⟨hc, hr⟩
    subst hc
    subst hr
    rw [if_neg (by decide), if_pos rfl]

theorem pArrTop_cont (f : Nat) (s : List Char) (c : Char) (s3 : List Char)
    (hs : skipWs s = c :: s3) (hc : c ≠ ']') :
    pArrTop (f + 1) s = pArrItems f (c :: s3) [] := by
  have e1 : pArrTop (f + 1) s =
      match c :: s3 with
      | ']' :: r => some (.arr [], r)
      | s2 => pArrItems f s2 [] := by
    rw [pArrTop, hs]
  rw [e1]
  split
  · rename_i h
    rcases List.cons.injEq .. ▸ h with ⟨hc2, _⟩
    exact absurd hc2 hc
  · rfl

theorem pArrItems_cont (f : Nat) (s r r2 : List Char) (acc : List JVal) (v : JVal)
    (hv : pVal f s = some (v, r)) (hr : skipWs r = ',' :: r2) :
    pArrItems (f + 1) s acc = pArrItems f r2 (acc ++ [ v ]) := by
  have e1 : pArrItems (f + 1) s acc =
      match skipWs r with
      | ',' :: r2 => pArrItems f r2 (acc ++ [ v ])
      | ']' :: r2 => some (.arr (acc ++ [ v ]), r2)
      | _ => none := by
    rw [pArrItems, hv]
  rw [e1, hr]
  rfl

theorem pArrItems_last (f : Nat) (s r r2 : List Char) (acc : List JVal) (v : JVal)
    (hv : pVal f s = some (v, r)) (hr : skipWs r = ']' :: r2) :
    pArrItems (f + 1) s acc = some (.arr (acc ++ [ v ]), r2) := by
  have e1 : pArrItems (f + 1) s acc =
      match skipWs r with
      | ',' :: r2 => pArrItems f r2 (acc ++ [ v ])
      | ']' :: r2 => some (.arr (acc ++ [ v ]), r2)
      | _ => none := by
    rw [pArrItems, hv]
  rw [e1, hr]
  rfl

theorem pVal_recLine (t ev q : List Char) (c0 : Char) (t2 : List Char)
    (hts : t = c0 :: t2) (hc : 48 ≤ c0.toNat ∧ c0.toNat ≤ 57)
    (ht : ∀ r, pNum (t ++ ',' :: r) = some (t, ',' :: r))
    (hev : ∀ c ∈ ev, plainCh c = true) (hq : ∀ c ∈ q, annCh c = true) (f : Nat) :
    pVal (f + 6) (recLine t ev q) = some (.arr [ .num t, .str ev, .str q ], [ '\n' ]) := by
  have hs0 : skipWs (recLine t ev q) =
      '[' :: (t ++ ',' :: ' ' :: (jdumps (.str ev) ++ ',' :: ' ' :: (jdumps (.str q) ++ [ ']', '\n' ]))) := by
    rw [recLine]
    exact skipWs_no _ (by decide)
  have hsX : skipWs (t ++ ',' :: ' ' :: (jdumps (.str ev) ++ ',' :: ' ' :: (jdumps (.str q) ++ [ ']', '\n' ]))) =
      c0 :: (t2 ++ ',' :: ' ' :: (jdumps (.str ev) ++ ',' :: ' ' :: (jdumps (.str q) ++ [ ']', '\n' ]))) := by
    rw [hts, List.cons_append]
    exact skipWs_no _ (isWsChar_of_range (by omega))
  have hv1 : pVal (f + 3)
      (t ++ ',' :: ' ' :: (jdumps (.str ev) ++ ',' :: ' ' :: (jdumps (.str q) ++ [ ']', '\n' ]))) =
      some (.num t, ',' :: ' ' :: (jdumps (.str ev) ++ ',' :: ' ' :: (jdumps (.str q) ++ [ ']', '\n' ]))) :=
    pVal_num (f + 2) t _ c0 t2 hts hc (ht _)
  have hs1 : skipWs (' ' :: (jdumps (.str ev) ++ ',' :: ' ' :: (jdumps (.str q) ++ [ ']', '\n' ]))) =
      '"' :: (jescape ev ++ '"' :: (',' :: ' ' :: (jdumps (.str q) ++ [ ']', '\n' ]))) := by
    rw [skipWs_yes _ (by decide)]
    simp only [jdumps, List.cons_append, List.append_assoc, List.singleton_append]
    exact skipWs_no _ (by decide)
  have hv2 : pVal (f + 2)
      (' ' :: (jdumps (.str ev) ++ ',' :: ' ' :: (jdumps (.str q) ++ [ ']', '\n' ]))) =
      some (.str ev, ',' :: ' ' :: (jdumps (.str q) ++ [ ']', '\n' ])) :=
    pVal_str (f + 1) ev _ _ (fun c hcm => by simp [annCh, payloadCh, hev c hcm]) hs1
  have hs2 : skipWs (' ' :: (jdumps (.str q) ++ [ ']', '\n' ])) =
      '"' :: (jescape q ++ '"' :: [ ']', '\n' ]) := by
    rw [skipWs_yes _ (by decide)]
    simp only [jdumps, List.cons_append, List.append_assoc, List.singleton_append]
    exact skipWs_no _ (by decide)
  have hv3 : pVal (f + 1) (' ' :: (jdumps (.str q) ++ [ ']', '\n' ])) =
      some (.str q, [ ']', '\n' ]) :=
    pVal_str f q _ _ hq hs2
  rw [show f + 6 = (f + 5) + 1 from rfl, pVal_arrTop (f + 5) _ _ hs0]
  rw [show f + 5 = (f + 4) + 1 from rfl, pArrTop_cont (f + 4) _ c0 _ hsX (ne_of_toNat (by simp; omega))]
  rw [show c0 :: (t2 ++ ',' :: ' ' :: (jdumps (.str ev) ++ ',' :: ' ' :: (jdumps (.str q) ++ [ ']', '\n' ]))) =
      t ++ ',' :: ' ' :: (jdumps (.str ev) ++ ',' :: ' ' :: (jdumps (.str q) ++ [ ']', '\n' ])) from by
    rw [hts, List.cons_append]]
  rw [show f + 4 = (f + 3) + 1 from rfl,
    pArrItems_cont (f + 3) _ _ _ [] (.num t) hv1 (skipWs_no _ (by decide))]
  rw [show f + 3 = (f + 2) + 1 from rfl,
    pArrItems_cont (f + 2) _ _ _ _ (.str ev) hv2 (skipWs_no _ (by decide))]
  rw [show f + 2 = (f + 1) + 1 from rfl,
    pArrItems_last (f + 1) _ _ _ _ (.str q) hv3 (skipWs_no _ (by decide))]
  rfl

theorem jloads_recLine (t ev q : List Char) (c0 : Char) (t2 : List Char)
    (hts : t = c0 :: t2) (hc : 48 ≤ c0.toNat ∧ c0.toNat ≤ 57)
    (ht : ∀ r, pNum (t ++ ',' :: r) = some (t, ',' :: r))
    (hev : ∀ c ∈ ev, plainCh c = true) (hq : ∀ c ∈ q, annCh c = true) :
    jloads (recLine t ev q) = some (.arr [ .num t, .str ev, .str q ]) := by
  rw [jloads]
  have hlen : 1 ≤ (recLine t ev q).length := by
    rw [recLine]
    simp
  rw [show 2 * (recLine t ev q).length + 4 = (2 * (recLine t ev q).length - 2) + 6 from by omega,
    pVal_recLine t ev q c0 t2 hts hc ht hev hq _]
  rfl

/-! ### The raw-text annotation seen through the escape -/

theorem rnEsc_pfx_cases {c1 c2 : Char} {t : List Char} (h : rnEsc <+: c1 :: c2 :: t) :
    c1 = '\\' ∧ c2 = 'r' ∧ [ '\\', 'n' ] <+: t := by
  rcases h with ⟨r, hr⟩
  rw [show rnEsc ++ r = '\\' :: 'r' :: '\\' :: 'n' :: r from rfl] at hr
  rcases List.cons.injEq .. ▸ hr with ⟨h1, hr2⟩
  rcases List.cons.injEq .. ▸ hr2 with ⟨h2, hr3⟩
  exact ⟨h1.symm, h2.symm, ⟨r, hr3⟩⟩

theorem rnEsc_pfx_head {c1 : Char} {t : List Char} (h : rnEsc <+: c1 :: t) : c1 = '\\' := by
  rcases h with ⟨r, hr⟩
  rw [show rnEsc ++ r = '\\' :: 'r' :: '\\' :: 'n' :: r from rfl] at hr
  exact (List.cons.injEq .. ▸ hr).1.symm

theorem bn_pfx_head {c1 : Char} {t : List Char} (h : ([ '\\', 'n' ] : List Char) <+: c1 :: t) :
    c1 = '\\' := by
  rcases h with ⟨r, hr⟩
  rw [show ([ '\\', 'n' ] : List Char) ++ r = '\\' :: 'n' :: r from rfl] at hr
  exact (List.cons.injEq .. ▸ hr).1.symm

theorem bn_pfx_two {c1 c2 : Char} {t : List Char}
    (h : ([ '\\', 'n' ] : List Char) <+: c1 :: c2 :: t) : c1 = '\\' ∧ c2 = 'n' := by
  rcases h with ⟨r, hr⟩
  rw [show ([ '\\', 'n' ] : List Char) ++ r = '\\' :: 'n' :: r from rfl] at hr
  rcases List.cons.injEq .. ▸ hr with ⟨h1, hr2⟩
  exact ⟨h1.symm, (List.cons.injEq .. ▸ hr2).1.symm⟩

theorem crlfR_pfx_cases {c1 : Char} {t : List Char} (h : crlfR <+: c1 :: t) :
    c1 = '\r' ∧ [ '\n' ] <+: t := by
  rcases h with ⟨r, hr⟩
  rw [show crlfR ++ r = '\r' :: '\n' :: r from rfl] at hr
  rcases List.cons.injEq .. ▸ hr with ⟨h1, hr2⟩
  exact ⟨h1.symm, ⟨r, hr2⟩⟩

theorem lf_pfx_head {c1 : Char} {t : List Char} (h : ([ '\n' ] : List Char) <+: c1 :: t) :
    c1 = '\n' := by
  rcases h with ⟨r, hr⟩
  rw [show ([ '\n' ] : List Char) ++ r = '\n' :: r from rfl] at hr
  exact (List.cons.injEq .. ▸ hr).1.symm

theorem replChars_skip_safe : ∀ (s u : List Char), (∀ c ∈ s, c ≠ '\\') →
    replChars rnEsc resetRep (s ++ u) = s ++ replChars rnEsc resetRep u
  | [], u, _ => by simp
  | c :: s, u, h => by
    have hns : ¬ rnEsc <+: c :: (s ++ u) :=
      fun hp => h c (List.mem_cons_self c s) (rnEsc_pfx_head hp)
    rw [List.cons_append, replChars_cons_skip hns, replChars_skip_safe s u
      (fun x hx => h x (List.mem_cons_of_mem c hx))]
    simp

theorem annP_nil : annP [] = [] := rfl

theorem annP_match (rest : List Char) :
    annP ('\r' :: '\n' :: rest) = '\r' :: '\n' :: (esc0mR ++ annP rest) := by
  rw [annP, replChars_cons_match (by decide) ⟨rest, rfl⟩, annP]
  rfl

theorem annP_skip {c : Char} {rest : List Char} (h : ¬ crlfR <+: c :: rest) :
    annP (c :: rest) = c :: annP rest := by
  rw [annP, replChars_cons_skip h, annP]

theorem annP_head : ∀ (s : List Char), (annP s).head? = s.head?
  | [] => rfl
  | c :: rest => by
    by_cases h : crlfR <+: c :: rest
    · obtain ⟨hc, hlf⟩ := crlfR_pfx_cases h
      subst hc
      rcases rest with _ | ⟨d, rest2⟩
      · rcases hlf with ⟨r, hr⟩
        simp at hr
      · have hd : d = '\n' := lf_pfx_head hlf
        subst hd
        rw [annP_match]
        rfl
    · rw [annP_skip h]
      rfl

theorem repl_jesc : ∀ (f : Nat) (p u : List Char), p.length ≤ f →
    (∀ c ∈ p, payloadCh c = true) → u.head? ≠ some '\\' →
    replChars rnEsc resetRep (jescape p ++ u) = jescape (annP p) ++ replChars rnEsc resetRep u := by
  intro f
  induction f with
  | zero =>
    intro p u hl _ _
    have hp : p = [] := List.length_eq_zero.mp (Nat.le_zero.mp hl)
    subst hp
    simp [jescape_nil, annP_nil]
  | succ f ih =>
    intro p u hl hpay hu
    rcases p with _ | ⟨c, rest⟩
    · simp [jescape_nil, annP_nil]
    have hcc := hpay c (List.mem_cons_self c rest)
    have hrest : ∀ x ∈ rest, payloadCh x = true := fun x hx => hpay x (List.mem_cons_of_mem c hx)
    by_cases hcr : c = '\r'
    · subst hcr
      rcases rest with _ | ⟨d, rest2⟩
      · -- p = ['\r']: a trailing bare CR
        rw [jescape_cons, jescape_nil, List.append_nil, escChar_cr]
        rw [show ([ '\\', 'r' ] : List Char) ++ u = '\\' :: 'r' :: u from rfl]
        have h1 : ¬ rnEsc <+: '\\' :: 'r' :: u := by
          intro hp
          have h2 := (rnEsc_pfx_cases hp).2.2
          rcases u with _ | ⟨u0, u2⟩
          · rcases h2 with ⟨r, hr⟩
            simp at hr
          · have h3 := bn_pfx_head h2
            simp only [List.head?_cons, ne_eq, Option.some.injEq] at hu
            exact hu h3
        have h2 : ¬ rnEsc <+: 'r' :: u := fun hp => absurd (rnEsc_pfx_head hp) (by decide)
        rw [replChars_cons_skip h1, replChars_cons_skip h2]
        rw [show annP [ '\r' ] = [ '\r' ] from by
          rw [annP_skip (fun hp => by rcases (crlfR_pfx_cases hp).2 with ⟨r, hr⟩; simp at hr),
            annP_nil]]
        rw [show jescape [ '\r' ] = [ '\\', 'r' ] from by
          rw [jescape_cons, jescape_nil, List.append_nil, escChar_cr]]
        rfl
      · have hd := hpay d (List.mem_cons_of_mem _ (List.mem_cons_self d rest2))
        by_cases hdn : d = '\n'
        · subst hdn
          -- the real CR-LF pair: both sides insert the reset
          rw [jescape_cons, jescape_cons, escChar_cr, escChar_lf]
          rw [show ([ '\\', 'r' ] : List Char) ++ (([ '\\', 'n' ] : List Char) ++ jescape rest2) ++ u =
            '\\' :: 'r' :: '\\' :: 'n' :: (jescape rest2 ++ u) from by simp]
          rw [show ('\\' :: 'r' :: '\\' :: 'n' :: (jescape rest2 ++ u)) =
            rnEsc ++ (jescape rest2 ++ u) from rfl]
          rcases List.exists_cons_of_ne_nil (show rnEsc ++ (jescape rest2 ++ u) ≠ [] from by
            simp [rnEsc]) with ⟨c1, ⟨t1, he⟩⟩
          rw [he, replChars_cons_match (by decide) (he ▸ ⟨jescape rest2 ++ u, rfl⟩), ← he]
          rw [show (rnEsc ++ (jescape rest2 ++ u)).drop rnEsc.length = jescape rest2 ++ u from by
            rw [List.drop_left]]
          rw [ih rest2 u (by simp only [List.length_cons] at hl; omega)
            (fun x hx => hrest x (List.mem_cons_of_mem _ hx)) hu]
          rw [annP_match]
          rw [jescape_cons, jescape_cons, escChar_cr, escChar_lf, jescape_append,
            show jescape esc0mR = esc0mEsc from by decide]
          simp [resetRep, rnEsc, esc0mEsc]
        · -- CR not followed by LF: no annotation on either side
          have hnotpfx : ¬ rnEsc <+: '\\' :: 'r' :: (jescape (d :: rest2) ++ u) := by
            intro hp
            have h2 := (rnEsc_pfx_cases hp).2.2
            rw [jescape_cons] at h2
            simp only [payloadCh, Bool.or_eq_true, decide_eq_true_eq] at hd
            rcases hd with (hdp | hdr) | hdl
            · rw [escChar_plain hdp, List.singleton_append] at h2
              exact (plainCh_facts hdp).2.2.2.1 (bn_pfx_head h2)
            · subst hdr
              rw [escChar_cr, show ([ '\\', 'r' ] : List Char) ++ jescape rest2 ++ u =
                '\\' :: 'r' :: (jescape rest2 ++ u) from by simp] at h2
              exact absurd (bn_pfx_two h2).2 (by decide)
            · exact hdn hdl
          rw [jescape_cons, escChar_cr]
          rw [show ([ '\\', 'r' ] : List Char) ++ jescape (d :: rest2) ++ u =
            '\\' :: 'r' :: (jescape (d :: rest2) ++ u) from by simp]
          rw [replChars_cons_skip hnotpfx,
            replChars_cons_skip (fun hp => absurd (rnEsc_pfx_head hp) (by decide))]
          rw [ih (d :: rest2) u (by simp only [List.length_cons] at hl ⊢; omega) hrest hu]
          rw [annP_skip (fun hp => hdn (lf_pfx_head (crlfR_pfx_cases hp).2))]
          rw [jescape_cons, escChar_cr]
          rfl
    · by_cases hcn : c = '\n'
      · subst hcn
        rw [jescape_cons, escChar_lf]
        rw [show ([ '\\', 'n' ] : List Char) ++ jescape rest ++ u =
          '\\' :: 'n' :: (jescape rest ++ u) from by simp]
        rw [replChars_cons_skip (fun hp => absurd (rnEsc_pfx_cases hp).2.1 (by decide)),
          replChars_cons_skip (fun hp => absurd (rnEsc_pfx_head hp) (by decide))]
        rw [ih rest u (by simp only [List.length_cons] at hl; omega) hrest hu]
        rw [annP_skip (fun hp => absurd (crlfR_pfx_cases hp).1 (by decide)),
          jescape_cons, escChar_lf]
        rfl
      · have hcp : plainCh c = true := by
          simp only [payloadCh, Bool.or_eq_true, decide_eq_true_eq] at hcc
          rcases hcc with (h | h) | h
          · exact h
          · exact absurd h hcr
          · exact absurd h hcn
        rw [jescape_cons, escChar_plain hcp, List.singleton_append, List.cons_append]
        rw [replChars_cons_skip (fun hp => (plainCh_facts hcp).2.2.2.1 (rnEsc_pfx_head hp))]
        rw [ih rest u (by simp only [List.length_cons] at hl; omega) hrest hu]
        rw [annP_skip (fun hp => hcr (crlfR_pfx_cases hp).1),
          jescape_cons, escChar_plain hcp]
        rfl

theorem recLine_shape (t ev p : List Char) (hev : ∀ c ∈ ev, plainCh c = true) :
    recLine t ev p =
      ('[' :: (t ++ (',' :: ' ' :: '"' :: (ev ++ [ '"', ',', ' ', '"' ])))) ++
        (jescape p ++ [ '"', ']', '\n' ]) := by
  rw [recLine]
  simp [jdumps, jescape_plain hev, List.append_assoc]

theorem replChars_recLine (t ev p : List Char)
    (htb : ∀ c ∈ t, c ≠ '\\')
    (hev : ∀ c ∈ ev, plainCh c = true)
    (hp : ∀ c ∈ p, payloadCh c = true) :
    replChars rnEsc resetRep (recLine t ev p) = recLine t ev (annP p) := by
  have hS : ∀ c ∈ ('[' :: (t ++ (',' :: ' ' :: '"' :: (ev ++ [ '"', ',', ' ', '"' ])))), c ≠ '\\' := by
    intro c hc
    simp only [List.mem_cons, List.mem_append] at hc
    rcases hc with rfl | hc
    · decide
    rcases hc with hc | hc
    · exact htb c hc
    rcases hc with rfl | hc
    · decide
    rcases hc with rfl | hc
    · decide
    rcases hc with rfl | hc
    · decide
    rcases hc with hc | hc
    · exact (plainCh_facts (hev c hc)).2.2.2.1
    rcases hc with rfl | hc
    · decide
    rcases hc with rfl | hc
    · decide
    rcases hc with rfl | hc
    · decide
    rcases hc with rfl | hc
    · decide
    simp at hc
  rw [recLine_shape t ev p hev, recLine_shape t ev (annP p) hev]
  rw [replChars_skip_safe _ _ hS]
  rw [repl_jesc p.length p [ '"', ']', '\n' ] (Nat.le_refl _) hp (by simp)]
  rw [replChars_of_not_ifx (by decide)]

theorem splitSep_skip_no_cr : ∀ (a x : List Char), (∀ c ∈ a, c ≠ '\r') →
    ∀ g gs, splitSep crlfR x = g :: gs → splitSep crlfR (a ++ x) = (a ++ g) :: gs
  | [], x, _, g, gs, h => by simpa using h
  | c :: a, x, h, g, gs, hx => by
    have hskip : ¬ crlfR <+: c :: (a ++ x) :=
      fun hp => h c (List.mem_cons_self c a) (crlfR_pfx_cases hp).1
    rw [List.cons_append, splitSep_cons_skip hskip,
      splitSep_skip_no_cr a x (fun y hy => h y (List.mem_cons_of_mem c hy)) g gs hx]
    simp

theorem splitSep_annP : ∀ (n : Nat) (p : List Char), p.length ≤ n →
    ∀ g gs, splitSep crlfR p = g :: gs →
    splitSep crlfR (annP p) = g :: gs.map (fun x => esc0mR ++ x) := by
  intro n
  induction n with
  | zero =>
    intro p hl g gs hx
    have hp : p = [] := List.length_eq_zero.mp (Nat.le_zero.mp hl)
    subst hp
    rw [splitSep_nil] at hx
    rcases List.cons.injEq .. ▸ hx with ⟨hg, hgs⟩
    rw [annP_nil, splitSep_nil, ← hg, ← hgs]
    rfl
  | succ n ih =>
    intro p hl g gs hx
    rcases p with _ | ⟨c, rest⟩
    · rw [splitSep_nil] at hx
      rcases List.cons.injEq .. ▸ hx with ⟨hg, hgs⟩
      rw [annP_nil, splitSep_nil, ← hg, ← hgs]
      rfl
    by_cases hm : crlfR <+: c :: rest
    · obtain ⟨hc, hlf⟩ := crlfR_pfx_cases hm
      subst hc
      rcases rest with _ | ⟨d, rest2⟩
      · rcases hlf with ⟨r, hr⟩
        simp at hr
      have hd : d = '\n' := lf_pfx_head hlf
      subst hd
      rw [splitSep_cons_match (by decide) hm] at hx
      rw [show (('\r' :: '\n' :: rest2).drop crlfR.length) = rest2 from rfl] at hx
      rcases hsp2 : splitSep crlfR rest2 with _ | ⟨g2, gs2⟩
      · exact absurd hsp2 (splitSep_ne_nil crlfR rest2)
      rw [hsp2] at hx
      rcases List.cons.injEq .. ▸ hx with ⟨hg, hgs⟩
      rw [annP_match]
      rw [splitSep_cons_match (by decide) ⟨esc0mR ++ annP rest2, rfl⟩]
      rw [show (('\r' :: '\n' :: (esc0mR ++ annP rest2)).drop crlfR.length) =
        esc0mR ++ annP rest2 from rfl]
      have h2 := ih rest2 (by simp only [List.length_cons] at hl; omega) g2 gs2 hsp2
      rw [splitSep_skip_no_cr esc0mR (annP rest2) (by decide) _ _ h2]
      rw [← hg, ← hgs]
      simp
    · rcases hsp2 : splitSep crlfR rest with _ | ⟨g2, gs2⟩
      · exact absurd hsp2 (splitSep_ne_nil crlfR rest)
      rw [splitSep_cons_skip hm, hsp2] at hx
      rcases List.cons.injEq .. ▸ hx with ⟨hg, hgs⟩
      have hm2 : ¬ crlfR <+: c :: annP rest := by
        intro hp
        obtain ⟨hc, hlf⟩ := crlfR_pfx_cases hp
        subst hc
        rcases hrest : annP rest with _ | ⟨a0, arest⟩
        · rw [hrest] at hlf
          rcases hlf with ⟨r, hr⟩
          simp at hr
        · rw [hrest] at hlf
          have ha0 : a0 = '\n' := lf_pfx_head hlf
          have hh := annP_head rest
          rw [hrest, ha0] at hh
          rcases rest with _ | ⟨r0, rrest⟩
          · simp [annP_nil] at hrest
          · simp only [List.head?_cons, Option.some.injEq] at hh
            exact hm ⟨rrest, by rw [show crlfR ++ rrest = '\r' :: '\n' :: rrest from rfl, hh]⟩
      rw [annP_skip hm, splitSep_cons_skip hm2,
        ih rest (by simp only [List.length_cons] at hl; omega) g2 gs2 hsp2]
      rw [← hg, ← hgs]

/-! ### A single-match scan and the merged summary line -/

theorem scanFrom_single : ∀ (ls : List Line) (k : Nat) (st : ScanSt) (i : Nat) (L : Line)
    (es : List (List Char)) (d : JVal),
    matchIdxsFrom k ls = [ i ] →
    (∀ l ∈ ls, marker <:+: l → l = L) →
    lineEntries L = .ok (es, d) →
    scanFrom k ls st = .ok ⟨st.packages ++ es, some (st.row?.getD d), st.dels ++ [ i ]⟩
  | [], k, st, i, L, es, d, hmi, _, _ => by simp [matchIdxsFrom] at hmi
  | l :: rest, k, st, i, L, es, d, hmi, huniq, hLE => by
    rw [matchIdxsFrom] at hmi
    by_cases hm : marker <:+: l
    · rw [if_pos hm] at hmi
      rcases List.cons.injEq .. ▸ hmi with ⟨hk, hrest⟩
      have hlL : l = L := huniq l (List.mem_cons_self l rest) hm
      subst hlL
      rw [scanFrom, if_pos hm, hLE]
      have hnone := (matchIdxsFrom_nil rest (k + 1)).mp hrest
      show scanFrom (k + 1) rest
          { packages := st.packages ++ es, row? := some (st.row?.getD d), dels := st.dels ++ [ k ] } =
        .ok { packages := st.packages ++ es, row? := some (st.row?.getD d), dels := st.dels ++ [ i ] }
      rw [scanFrom_no_match rest (k + 1) _ hnone, hk]
    · rw [if_neg hm] at hmi
      rw [scanFrom, if_neg hm]
      exact scanFrom_single rest (k + 1) st i L es d hmi
        (fun x hx hmk => huniq x (List.mem_cons_of_mem l hx) hmk) hLE

theorem jdumps_arr3 (a b c : JVal) :
    jdumps (.arr [ a, b, c ]) =
      '[' :: (jdumps a ++ ',' :: ' ' :: (jdumps b ++ ',' :: ' ' :: (jdumps c ++ [ ']' ]))) := by
  rw [jdumps]
  rw [jdumpsArr, jdumpsArr, jdumpsArr]
  simp

theorem mergedOf_single (ls : List Line) (i : Nat) (t ev q : List Char)
    (hmi : matchIdxs ls = [ i ])
    (hL : ls[i]? = some (recLine t ev q))
    (hjl : jloads (recLine t ev q) = some (.arr [ .num t, .str ev, .str q ])) :
    mergedOf ls = .ok (recLine t ev
      (List.intercalate crlfR (ellipsize (splitSep crlfR q)))) := by
  have huniq : ∀ l ∈ ls, marker <:+: l → l = recLine t ev q := by
    intro l hl hmk
    rcases List.getElem?_of_mem hl with ⟨j, hj⟩
    have hjm := (matchIdxsFrom_spec ls 0 j l hj).mpr hmk
    rw [Nat.zero_add] at hjm
    have hjm2 : j ∈ matchIdxs ls := hjm
    rw [hmi] at hjm2
    have hji : j = i := by simpa using hjm2
    subst hji
    rw [hj] at hL
    exact Option.some.injEq .. ▸ hL
  have hLE : lineEntries (recLine t ev q) =
      .ok (splitSep crlfR q, .arr [ .num t, .str ev, .str q ]) := by
    rw [lineEntries, hjl]
    rfl
  have hscan := scanFrom_single ls 0 initSt i (recLine t ev q) (splitSep crlfR q)
    (.arr [ .num t, .str ev, .str q ]) hmi huniq hLE
  have hmg : mergedOf ls = .ok (jdumps (.arr [ .num t, .str ev,
      .str (List.intercalate crlfR (ellipsize (splitSep crlfR q))) ]) ++ [ '\n' ]) := by
    rw [mergedOf, hscan]
    rfl
  rw [hmg]
  congr 1
  rw [jdumps_arr3, recLine]
  simp [jdumps]

theorem annP_chars : ∀ (n : Nat) (p : List Char), p.length ≤ n →
    (∀ c ∈ p, payloadCh c = true) → ∀ c ∈ annP p, annCh c = true := by
  intro n
  induction n with
  | zero =>
    intro p hl _
    have hp : p = [] := List.length_eq_zero.mp (Nat.le_zero.mp hl)
    subst hp
    rw [annP_nil]
    intro c hc
    simp at hc
  | succ n ih =>
    intro p hl hpay
    rcases p with _ | ⟨c, rest⟩
    · rw [annP_nil]
      intro c hc
      simp at hc
    have hrest : ∀ x ∈ rest, payloadCh x = true := fun x hx => hpay x (List.mem_cons_of_mem c hx)
    by_cases hm : crlfR <+: c :: rest
    · obtain ⟨hc, hlf⟩ := crlfR_pfx_cases hm
      subst hc
      rcases rest with _ | ⟨d, rest2⟩
      · rcases hlf with ⟨r, hr⟩
        simp at hr
      have hd : d = '\n' := lf_pfx_head hlf
      subst hd
      rw [annP_match]
      intro x hx
      simp only [List.mem_cons, List.mem_append] at hx
      rcases hx with rfl | hx
      · decide
      rcases hx with rfl | hx
      · decide
      rcases hx with hx | hx
      · have : ∀ y ∈ esc0mR, annCh y = true := by decide
        exact this x hx
      · exact ih rest2 (by simp only [List.length_cons] at hl; omega)
          (fun y hy => hrest y (List.mem_cons_of_mem _ hy)) x hx
    · rw [annP_skip hm]
      intro x hx
      rcases List.mem_cons.mp hx with rfl | hx
      · simp [annCh, hpay x (List.mem_cons_self x rest)]
      · exact ih rest (by simp only [List.length_cons] at hl; omega) hrest x hx

/-- C10: the collapser sees each canonical package-addition record only
after the annotator has rewritten every escaped `\r\n` in it, which
amounts to inserting a real ESC[0m after every CR-LF of the decoded
payload; the record then decodes with those resets in place, splitting
the decoded payload on CR-LF gives the same number of entries as the
original payload with every entry after the first carrying the ESC[0m
prefix, and those prefixes are carried verbatim into the merged,
truncated summary payload. -/
theorem claim_C10 (t ev p : List Char) (c0 : Char) (t2 : List Char)
    (hts : t = c0 :: t2) (hc0 : 48 ≤ c0.toNat ∧ c0.toNat ≤ 57)
    (ht : ∀ r, pNum (t ++ ',' :: r) = some (t, ',' :: r))
    (htb : ∀ c ∈ t, c ≠ '\\')
    (hev : ∀ c ∈ ev, plainCh c = true)
    (hp : ∀ c ∈ p, payloadCh c = true) :
    replChars rnEsc resetRep (recLine t ev p) = recLine t ev (annP p) ∧
    jloads (recLine t ev (annP p)) = some (.arr [ .num t, .str ev, .str (annP p) ]) ∧
    ∃ e es, splitSep crlfR p = e :: es ∧
      splitSep crlfR (annP p) = e :: es.map (fun x => esc0mR ++ x) ∧
      entriesOfLine (recLine t ev (annP p)) = .ok (e :: es.map (fun x => esc0mR ++ x)) ∧
      ∀ ls i, matchIdxs ls = [ i ] → ls[i]? = some (recLine t ev (annP p)) →
        mergedOf ls = .ok (recLine t ev
          (List.intercalate crlfR (ellipsize (e :: es.map (fun x => esc0mR ++ x))))) := by
  have hannp : ∀ c ∈ annP p, annCh c = true := annP_chars p.length p (Nat.le_refl _) hp
  have h1 := replChars_recLine t ev p htb hev hp
  have h2 := jloads_recLine t ev (annP p) c0 t2 hts hc0 ht hev hannp
  obtain ⟨e, es, hsp⟩ : ∃ e es, splitSep crlfR p = e :: es := by
    rcases h : splitSep crlfR p with _ | ⟨e, es⟩
    · exact absurd h (splitSep_ne_nil crlfR p)
    · exact ⟨e, es, rfl⟩
  have h3 := splitSep_annP p.length p (Nat.le_refl _) e es hsp
  have hle : lineEntries (recLine t ev (annP p)) =
      .ok (splitSep crlfR (annP p), .arr [ .num t, .str ev, .str (annP p) ]) := by
    rw [lineEntries, h2]
    rfl
  have h4 : entriesOfLine (recLine t ev (annP p)) = .ok (e :: es.map (fun x => esc0mR ++ x)) := by
    rw [entriesOfLine, hle, h3]
    rfl
  refine ⟨h1, h2, e, es, hsp, h3, h4, ?_⟩
  intro ls i hmi hL
  have h5 := mergedOf_single ls i t ev (annP p) hmi hL h2
  rw [h5, h3]

/-- C10 witness: the canonical two-entry record `[1, "o", "a\r\nb"]`. -/
theorem claim_C10_witness :
    replChars rnEsc resetRep (recLine [ '1' ] [ 'o' ] (strOf "a\r\nb")) =
      recLine [ '1' ] [ 'o' ] (annP (strOf "a\r\nb")) ∧
    jloads (recLine [ '1' ] [ 'o' ] (annP (strOf "a\r\nb"))) =
      some (.arr [ .num [ '1' ], .str [ 'o' ], .str (annP (strOf "a\r\nb")) ]) ∧
    ∃ e es, splitSep crlfR (strOf "a\r\nb") = e :: es ∧
      splitSep crlfR (annP (strOf "a\r\nb")) = e :: es.map (fun x => esc0mR ++ x) ∧
      entriesOfLine (recLine [ '1' ] [ 'o' ] (annP (strOf "a\r\nb"))) =
        .ok (e :: es.map (fun x => esc0mR ++ x)) ∧
      ∀ ls i, matchIdxs ls = [ i ] →
        ls[i]? = some (recLine [ '1' ] [ 'o' ] (annP (strOf "a\r\nb"))) →
        mergedOf ls = .ok (recLine [ '1' ] [ 'o' ]
          (List.intercalate crlfR (ellipsize (e :: es.map (fun x => esc0mR ++ x))))) :=
  claim_C10 [ '1' ] [ 'o' ] (strOf "a\r\nb") '1' [] rfl (by decide) (fun r => rfl)
    (by decide) (by decide) (by decide)
